import Mathlib

/-!
# covg: per-function statement coverage

A shallow embedding of the core of `main.go` (block matcher, coverage
aggregator, range formatter, path elision) and theorems about it.

Conventions of the embedding:
* a Go `string` is the list of its bytes, each byte written as the `Char` with
  the same code (`GoString`);
* Go `int` fields of a coverage block and of a function extent are `Int`; they
  are only compared and printed;
* `int64` accumulation wraps around, see `wrap64`;
* a `panic(v)` is the `Except.error v` result.
-/

namespace Covg

/-- A Go string, as its sequence of bytes. -/
abbrev GoString := List Char

/-- The block of a coverage profile (`cover.ProfileBlock`). -/
structure ProfileBlock where
  StartLine : Int
  StartCol : Int
  EndLine : Int
  EndCol : Int
  NumStmt : Int
  Count : Int
deriving DecidableEq

/-- The profile of one source file (`cover.Profile`), without its mode. -/
structure Profile where
  FileName : GoString
  Blocks : List ProfileBlock
deriving DecidableEq

/-- Modelled from the spec: the declaration of the type `FuncExtent` is not in
the sources at hand; its fields are the five that `profile` and `printCoverage`
read, as listed in the data model (name and start/end line and column). -/
structure FuncExtent where
  name : GoString
  startLine : Int
  startCol : Int
  endLine : Int
  endCol : Int
deriving DecidableEq

/-- First test of the loop of `profile`: the block is past the end of the
function. -/
def isPast (f : FuncExtent) (b : ProfileBlock) : Bool :=
  decide (b.StartLine > f.endLine) ||
    (decide (b.StartLine = f.endLine) && decide (b.StartCol ≥ f.endCol))

/-- Second test of the loop of `profile`: the block is before the beginning of
the function. -/
def isBefore (f : FuncExtent) (b : ProfileBlock) : Bool :=
  decide (b.EndLine < f.startLine) ||
    (decide (b.EndLine = f.startLine) && decide (b.EndCol ≤ f.startCol))

/-- The `for i, b := range profile.Blocks` loop of `profile`, with the blocks
still to visit, the index `i` of the next one and the variable `start`
(`-1` while unset). `blocks[start:i]` is `(blocks.take i).drop start`. -/
def profileLoop (f : FuncExtent) (blocks : List ProfileBlock) :
    List ProfileBlock → Nat → Int → Except GoString (List ProfileBlock)
  | [], _, start =>
    if start = -1 then Except.error f.name
    else Except.ok (blocks.drop start.toNat)
  | b :: rest, i, start =>
    if isPast f b then
      if start = -1 then Except.error f.name
      else Except.ok ((blocks.take i).drop start.toNat)
    else if isBefore f b then profileLoop f blocks rest (i + 1) start
    else profileLoop f blocks rest (i + 1) (if start = -1 then (i : Int) else start)

/-- The method `(*FuncExtent).profile`: the blocks of this function. -/
def FuncExtent.profile (f : FuncExtent) (profile : Profile) :
    Except GoString (List ProfileBlock) :=
  profileLoop f profile.Blocks profile.Blocks 0 (-1)

/-- Index of the first block past the function, or the number of blocks. -/
def firstPast (f : FuncExtent) (blocks : List ProfileBlock) : Nat :=
  blocks.findIdx (isPast f)

/-- Index of the first block, among those below `firstPast`, that is not
before the function, or `firstPast` when there is none. -/
def firstInRange (f : FuncExtent) (blocks : List ProfileBlock) : Nat :=
  (blocks.take (firstPast f blocks)).findIdx (fun b => !isBefore f b)

/-- Decimal rendering of an integer by the verb `%d` of `fmt.Sprintf`. -/
def fmtD : Int → GoString
  | Int.ofNat n => Nat.toDigits 10 n
  | Int.negSucc n => '-' :: Nat.toDigits 10 (n + 1)

/-- The function `formatBlock`: the line numbers of a block as a string. -/
def formatBlock (b : ProfileBlock) : GoString :=
  if b.StartLine = b.EndLine then fmtD b.StartLine
  else fmtD b.StartLine ++ ['-'] ++ fmtD b.EndLine

/-- Two's complement wrap-around of a sum computed in `int64`. -/
def wrap64 (x : Int) : Int :=
  (x + 2 ^ 63) % 2 ^ 64 - 2 ^ 63

/-- The loop of `coverageBlocks`, with the variables `covered` and `total`. -/
def coverageBlocksLoop : List ProfileBlock → Int → Int → Int × Int
  | [], covered, total => (covered, total)
  | b :: rest, covered, total =>
    let total := wrap64 (total + b.NumStmt)
    let covered := if b.Count > 0 then wrap64 (covered + b.NumStmt) else covered
    coverageBlocksLoop rest covered total

/-- The function `coverageBlocks`: statements covered and statements in total. -/
def coverageBlocks (blocks : List ProfileBlock) : Int × Int :=
  coverageBlocksLoop blocks 0 0

/-- The library function `strings.Join`. -/
def stringsJoin : List GoString → GoString → GoString
  | [], _ => []
  | [a], _ => a
  | a :: rest, sep => a ++ sep ++ stringsJoin rest sep

/-- The function `extentsBlocks`: one range for all the blocks. -/
def extentsBlocks (blocks : List ProfileBlock) : GoString :=
  match blocks with
  | [] => []
  | b :: rest =>
    formatBlock { b with EndLine := ((b :: rest).getLast (List.cons_ne_nil b rest)).EndLine }

/-- The function `allBlocks`: every block, comma separated. -/
def allBlocks (blocks : List ProfileBlock) : GoString :=
  stringsJoin (blocks.map formatBlock) [',']

/-- The zero value of `cover.ProfileBlock`. -/
def zeroBlock : ProfileBlock :=
  { StartLine := 0, StartCol := 0, EndLine := 0, EndCol := 0, NumStmt := 0, Count := 0 }

/-- The loop of `missingBlocks`, with the variables `out` and `accumul`. -/
def missingBlocksLoop :
    List ProfileBlock → List GoString → ProfileBlock → List GoString × ProfileBlock
  | [], out, accumul => (out, accumul)
  | b :: rest, out, accumul =>
    if b.Count > 0 then
      if accumul.StartLine ≠ 0 then
        missingBlocksLoop rest (out ++ [formatBlock accumul]) { accumul with StartLine := 0 }
      else missingBlocksLoop rest out accumul
    else
      let accumul1 :=
        if accumul.StartLine = 0 then { accumul with StartLine := b.StartLine } else accumul
      missingBlocksLoop rest out { accumul1 with EndLine := b.EndLine }

/-- The function `missingBlocks`: the lines missing coverage. -/
def missingBlocks (blocks : List ProfileBlock) : GoString :=
  let r := missingBlocksLoop blocks [] zeroBlock
  let out := if r.2.StartLine ≠ 0 then r.1 ++ [formatBlock r.2] else r.1
  stringsJoin out [',']

/-- The loop of `commonPrefix`. The first argument is `l - i`, the number of
iterations the test `i < l` still allows; it is zero exactly when `i = l`. -/
def commonPrefixLoop (a b : GoString) : Nat → Nat → Nat
  | 0, i => i
  | k + 1, i => if a[i]? = b[i]? then commonPrefixLoop a b k (i + 1) else i

/-- The function `commonPrefix`. -/
def commonPrefix (a b : GoString) : GoString :=
  let l := if b.length < a.length then b.length else a.length
  a.take (commonPrefixLoop a b l 0)

/-- The computation of `offset` in `printCoverage`. The library function
`filepath.Dir` is the parameter `Dir`. -/
def pathOffset (Dir : GoString → GoString) (all : Bool) (profiles : List Profile) : Nat :=
  if !all then
    match profiles.map (fun profile => Dir profile.FileName) with
    | [] => 0
    | [d0] => if d0.length ≠ 0 then d0.length + 1 else d0.length
    | d0 :: rest =>
      let pfx := rest.foldl commonPrefix d0
      if pfx.length ≠ 0 then pfx.length + 1 else pfx.length
  else 0

/-- The slice `fn[offset:]` printed by `printCoverage`; slicing past the end
of the string is a run-time panic, here `none`. -/
def trimPath (fn : GoString) (offset : Nat) : Option GoString :=
  if offset ≤ fn.length then some (fn.drop offset) else none

/-- A Go `error` other than `nil`: the value `errSilent` or any other error,
with its message. The `nil` error is `none` in `Option GoError`. -/
inductive GoError where
  | errSilent
  | other (msg : GoString)
deriving DecidableEq

/-- The ways in which the report driver stops before its last line. -/
inductive Abort where
  | panic (v : GoString)
  | sliceBounds
  | failed (err : GoError)
deriving DecidableEq

/-- One line written by `printCoverage` for a function: the arguments of its
`Fprintf`, with `covered` and `total` the two arguments of `percent`. -/
structure ReportLine where
  path : GoString
  startLine : Int
  name : GoString
  covered : Int
  total : Int
  ranges : GoString
deriving DecidableEq

/-- What `printCoverage` has written: the lines of the functions, and its two
variables `covered` and `total`, of which the last line prints the percentage. -/
structure Report where
  lines : List ReportLine
  covered : Int
  total : Int
deriving DecidableEq

/-- The loop `for _, f := range funcs` of `printCoverage`, on one profile of
file name `fn`. A panic of `profile` is `Abort.panic`, a slice `fn[offset:]`
past the end of `fn` is `Abort.sliceBounds`. -/
def funcsLoop (all : Bool) (offset : Nat) (fn : GoString) (profile : Profile) :
    List FuncExtent → Report → Except Abort Report
  | [], acc => Except.ok acc
  | f :: rest, acc =>
    match f.profile profile with
    | Except.error v => Except.error (Abort.panic v)
    | Except.ok blocks =>
      let ct := coverageBlocks blocks
      if f.name = ['_'] ∧ all = false then funcsLoop all offset fn profile rest acc
      else
        let total := wrap64 (acc.total + ct.2)
        let covered := wrap64 (acc.covered + ct.1)
        if ct.1 = ct.2 then
          if all = true then
            match trimPath fn offset with
            | none => Except.error Abort.sliceBounds
            | some path =>
              funcsLoop all offset fn profile rest
                ⟨acc.lines ++ [⟨path, f.startLine, f.name, ct.1, ct.2, extentsBlocks blocks⟩],
                  covered, total⟩
          else funcsLoop all offset fn profile rest ⟨acc.lines, covered, total⟩
        else
          match trimPath fn offset with
          | none => Except.error Abort.sliceBounds
          | some path =>
            funcsLoop all offset fn profile rest
              ⟨acc.lines ++ [⟨path, f.startLine, f.name, ct.1, ct.2, missingBlocks blocks⟩],
                covered, total⟩

/-- The loop `for _, profile := range profiles` of `printCoverage`. The calls
`findFile` then `findFuncs`, whose code is not at hand, are the parameter
`findFuncs`, from the file name of the profile to the functions of the file or
an error. -/
def profilesLoop (findFuncs : GoString → Except GoError (List FuncExtent)) (all : Bool)
    (offset : Nat) : List Profile → Report → Except Abort Report
  | [], acc => Except.ok acc
  | profile :: rest, acc =>
    match findFuncs profile.FileName with
    | Except.error err => Except.error (Abort.failed err)
    | Except.ok funcs =>
      match funcsLoop all offset profile.FileName profile funcs acc with
      | Except.error a => Except.error a
      | Except.ok acc1 => profilesLoop findFuncs all offset rest acc1

/-- The function `printCoverage`, from the parsed profiles on. -/
def printCoverage (Dir : GoString → GoString)
    (findFuncs : GoString → Except GoError (List FuncExtent)) (all : Bool)
    (profiles : List Profile) : Except Abort Report :=
  profilesLoop findFuncs all (pathOffset Dir all profiles) profiles ⟨[], 0, 0⟩

/-- The function `runCover`, as a function of the outcomes of its calls:
`os.CreateTemp`, the run of the test command, `printCoverage` (called only when
the run succeeded) and `os.Remove`. -/
def runCover (createTemp run print remove : Option GoError) : Option GoError :=
  match createTemp with
  | some err => some err
  | none =>
    let err := match run with
      | none => print
      | some e => some e
    let err1 := if err ≠ none then some GoError.errSilent else err
    if err1 = none then remove else err1

/-- The end of `mainImpl`, from the call of `getPackages` on, as a function of
the packages found, of the error returned by `runCover` and of the error of the
context (`ctx.Err()`, not `nil` once the context is cancelled). -/
def mainImplEnd (pkgs : List GoString) (err ctxErr : Option GoError) : Option GoError :=
  if pkgs.length = 0 then some (GoError.other "invalid path".toList)
  else if err = none then err
  else if ctxErr ≠ none then some GoError.errSilent
  else none

/-- The exit code that `main` gives to the error of `mainImpl`. -/
def exitCode (err : Option GoError) : Nat :=
  if err ≠ none then 1 else 0

/-- The library function `strings.HasPrefix`. -/
def stringsHasPrefix (s pre : GoString) : Bool :=
  pre.isPrefixOf s

/-- The loop over `args` in `mainImpl`. The `range` clause reads the slice it
was given at the start, here the arguments still to visit with the index `i` of
the next one, while the body reads and assigns the variables `args` and
`extraArgs`. A slice `args[i+1:]` past the length of `args` is a run-time
panic, here `none`. -/
def splitArgsLoop :
    List GoString → Nat → List GoString → List GoString →
      Option (List GoString × List GoString)
  | [], _, args, extraArgs => some (args, extraArgs)
  | a :: rest, i, args, extraArgs =>
    if a = "--".toList then
      if i + 1 ≤ args.length then some (args.take i, args.drop (i + 1)) else none
    else if stringsHasPrefix a "-".toList then splitArgsLoop rest (i + 1) [] args
    else splitArgsLoop rest (i + 1) args extraArgs

/-- The splitting of the positional arguments in `mainImpl`: the packages and
the arguments passed on to the test runner. -/
def splitArgs (args : List GoString) : Option (List GoString × List GoString) :=
  match splitArgsLoop args 0 args [] with
  | none => none
  | some (pkgs, extraArgs) =>
    some (if pkgs.length = 0 then [".".toList] else pkgs, extraArgs)

/-! ## Specification-side definitions -/

/-- A block counts as covered when its hit count is positive. -/
def isCovered (b : ProfileBlock) : Bool :=
  decide (b.Count > 0)

/-- The maximal runs of consecutive uncovered blocks: the list is cut at every
covered block and the empty pieces are dropped. -/
def uncoveredRuns (blocks : List ProfileBlock) : List (List ProfileBlock) :=
  (blocks.splitOnP isCovered).filter (fun run => !run.isEmpty)

/-- The range of a run of blocks: it goes from the start line of the first
block of the run to the end line of its last block, and has everything else as
in the zero block. -/
def runRange (run : List ProfileBlock) : ProfileBlock :=
  match run with
  | [] => zeroBlock
  | b :: rest =>
    { zeroBlock with
      StartLine := b.StartLine
      EndLine := ((b :: rest).getLast (List.cons_ne_nil b rest)).EndLine }

/-- Sum of the statement counts of the blocks of a list. -/
def sumStmt (blocks : List ProfileBlock) : Int :=
  (blocks.map (fun b => b.NumStmt)).sum

/-- Lexicographic order on positions `(line, column)`, strict. -/
def posLt (l1 c1 l2 c2 : Int) : Prop :=
  l1 < l2 ∨ (l1 = l2 ∧ c1 < c2)

/-- Lexicographic order on positions `(line, column)`. -/
def posLe (l1 c1 l2 c2 : Int) : Prop :=
  l1 < l2 ∨ (l1 = l2 ∧ c1 ≤ c2)

instance (l1 c1 l2 c2 : Int) : Decidable (posLt l1 c1 l2 c2) :=
  inferInstanceAs (Decidable (l1 < l2 ∨ (l1 = l2 ∧ c1 < c2)))

instance (l1 c1 l2 c2 : Int) : Decidable (posLe l1 c1 l2 c2) :=
  inferInstanceAs (Decidable (l1 < l2 ∨ (l1 = l2 ∧ c1 ≤ c2)))

/-- Start position `(line, column)` comparison: `a` starts no later than `b`. -/
def startLe (a b : ProfileBlock) : Prop :=
  posLe a.StartLine a.StartCol b.StartLine b.StartCol

instance (a b : ProfileBlock) : Decidable (startLe a b) :=
  inferInstanceAs (Decidable (posLe a.StartLine a.StartCol b.StartLine b.StartCol))

/-- The block list is sorted by `(StartLine, StartCol)`. -/
def SortedBlocks (blocks : List ProfileBlock) : Prop :=
  blocks.Pairwise startLe

instance (blocks : List ProfileBlock) : Decidable (SortedBlocks blocks) :=
  inferInstanceAs (Decidable (blocks.Pairwise startLe))

/-- The block lies within the span of the function: it starts at or after the
start of the function and ends at or before its end. -/
def Within (f : FuncExtent) (b : ProfileBlock) : Prop :=
  posLe f.startLine f.startCol b.StartLine b.StartCol ∧
    posLe b.EndLine b.EndCol f.endLine f.endCol

instance (f : FuncExtent) (b : ProfileBlock) : Decidable (Within f b) :=
  inferInstanceAs (Decidable (posLe f.startLine f.startCol b.StartLine b.StartCol ∧
    posLe b.EndLine b.EndCol f.endLine f.endCol))

/-- The block has a positive extent: it ends after it starts. -/
def PositiveExtent (b : ProfileBlock) : Prop :=
  posLt b.StartLine b.StartCol b.EndLine b.EndCol

instance (b : ProfileBlock) : Decidable (PositiveExtent b) :=
  inferInstanceAs (Decidable (posLt b.StartLine b.StartCol b.EndLine b.EndCol))

/-- The function `f` comes before the function `g` without overlap: it starts
no later than `g` and ends at or before the start of `g`. -/
def funcBefore (f g : FuncExtent) : Prop :=
  posLe f.startLine f.startCol g.startLine g.startCol ∧
    posLe f.endLine f.endCol g.startLine g.startCol

instance (f g : FuncExtent) : Decidable (funcBefore f g) :=
  inferInstanceAs (Decidable (posLe f.startLine f.startCol g.startLine g.startCol ∧
    posLe f.endLine f.endCol g.startLine g.startCol))

/-- The function extents are sorted by start position and do not overlap. -/
def SortedDisjointFuncs (funcs : List FuncExtent) : Prop :=
  funcs.Pairwise funcBefore

instance (funcs : List FuncExtent) : Decidable (SortedDisjointFuncs funcs) :=
  inferInstanceAs (Decidable (funcs.Pairwise funcBefore))

/-- The end line of a run in progress: the end line of the last block of
`run`, or `e` when `run` is empty. -/
def lastEnd (run : List ProfileBlock) (e : Int) : Int :=
  run.foldl (fun _ b => b.EndLine) e

/-- The value of `out` when `missingBlocks` leaves its loop and has flushed
the range still in `accumul`. -/
def flushed (r : List GoString × ProfileBlock) : List GoString :=
  if r.2.StartLine ≠ 0 then r.1 ++ [formatBlock r.2] else r.1

/-- The ranges of a list of runs: one per non-empty run. -/
def rangesOf (pieces : List (List ProfileBlock)) : List GoString :=
  (pieces.filter (fun run => !run.isEmpty)).map (fun run => formatBlock (runRange run))

/-- Number of leading positions at which two strings agree. -/
def agreeLen : GoString → GoString → Nat
  | x :: a, y :: b => if x = y then agreeLen a b + 1 else 0
  | _, _ => 0

/-- The string `q` is a common prefix of all the strings of `ds`. -/
def CommonPrefixOf (q : GoString) (ds : List GoString) : Prop :=
  ∀ d ∈ ds, q <+: d

/-- Modelled from the spec: the function `percent` is not in the sources at
hand. The percentage is `100 * covered / total`, and 100 when `total` is zero;
the floating-point quotient is taken as the exact one. -/
def percent (covered total : Int) : ℚ :=
  if total = 0 then 100 else 100 * (covered : ℚ) / (total : ℚ)

/-- File name of the fixture package in a coverage profile, as printed in full
by the test of the full-detail mode. -/
def fixtureFileName : GoString :=
  "github.com/maruel/covg/testpkg/testpkg.go".toList

/-- The coverage profile of the fixture `testpkg.go` when its tests have run:
one block for `tested` (hit), one for `untested` (never hit), and for
`partlytested` the entry block of two statements, the two branch blocks and the
block of the `return`, of which only the branch of lines 17 to 19 is not hit. -/
def fixtureProfile : Profile :=
  { FileName := fixtureFileName
    Blocks := [⟨7, 22, 9, 2, 1, 1⟩, ⟨11, 24, 13, 2, 1, 0⟩, ⟨15, 34, 17, 7, 2, 1⟩,
      ⟨17, 7, 19, 3, 1, 0⟩, ⟨19, 8, 21, 3, 1, 1⟩, ⟨22, 2, 22, 10, 1, 1⟩] }

/-- The three functions of the fixture `testpkg.go`, from the keyword `func`
to the closing brace. -/
def fixtureFuncs : List FuncExtent :=
  [⟨"tested".toList, 7, 1, 9, 2⟩, ⟨"untested".toList, 11, 1, 13, 2⟩,
    ⟨"partlytested".toList, 15, 1, 23, 2⟩]

/-- The lines that the default mode keeps: those of the functions that are not
fully covered and are not named `_`. -/
def keptByDefault (l : ReportLine) : Bool :=
  decide (l.covered ≠ l.total) && decide (l.name ≠ ['_'])

/-- The line with its path trimmed by `offset` bytes. -/
def trimLine (offset : Nat) (l : ReportLine) : ReportLine :=
  { l with path := l.path.drop offset }

/-! ## The block matcher as a slice -/

theorem profileLoop_started (f : FuncExtent) (blocks : List ProfileBlock) (s : Nat) :
    ∀ (rest pre : List ProfileBlock), blocks = pre ++ rest →
      profileLoop f blocks rest pre.length (s : Int) =
        Except.ok ((blocks.take (pre.length + rest.findIdx (isPast f))).drop s) := by
  intro rest
  induction rest with
  | nil =>
    intro pre h
    have hne : ¬ ((s : Int) = -1) := by omega
    simp [profileLoop, hne, h]
  | cons b rest ih =>
    intro pre h
    have hne : ¬ ((s : Int) = -1) := by omega
    by_cases hp : isPast f b = true
    · simp [profileLoop, hp, hne, List.findIdx_cons]
    · have h2 : blocks = (pre ++ [b]) ++ rest := by simp [h]
      have ih2 := ih (pre ++ [b]) h2
      simp only [List.length_append, List.length_singleton] at ih2
      have hp2 : isPast f b = false := by simpa using hp
      by_cases hb : isBefore f b = true
      · simp only [profileLoop, hp2, hb, if_true, List.findIdx_cons, cond_false]
        rw [ih2]; simp; congr 2; omega
      · simp only [profileLoop, hp2, hb, hne, if_false, List.findIdx_cons, cond_false]
        rw [ih2]; simp; congr 2; omega

theorem profileLoop_unset (f : FuncExtent) (blocks : List ProfileBlock) :
    ∀ (rest pre : List ProfileBlock), blocks = pre ++ rest →
      profileLoop f blocks rest pre.length (-1) =
        if firstInRange f rest = firstPast f rest then Except.error f.name
        else Except.ok ((blocks.take (pre.length + firstPast f rest)).drop
          (pre.length + firstInRange f rest)) := by
  intro rest
  induction rest with
  | nil =>
    intro pre _
    simp [profileLoop, firstInRange, firstPast]
  | cons b rest ih =>
    intro pre h
    have h2 : blocks = (pre ++ [b]) ++ rest := by simp [h]
    by_cases hp : isPast f b = true
    · simp [profileLoop, hp, firstInRange, firstPast, List.findIdx_cons]
    · have hp2 : isPast f b = false := by simpa using hp
      by_cases hb : isBefore f b = true
      · have ih2 := ih (pre ++ [b]) h2
        simp only [List.length_append, List.length_singleton] at ih2
        have e1 : firstPast f (b :: rest) = firstPast f rest + 1 := by
          simp [firstPast, List.findIdx_cons, hp2]
        have e2 : firstInRange f (b :: rest) = firstInRange f rest + 1 := by
          simp [firstInRange, firstPast, List.findIdx_cons, hp2, hb]
        simp only [profileLoop, hp2, hb, if_true]
        rw [ih2, e1, e2]
        by_cases hEq : firstInRange f rest = firstPast f rest
        · simp [hEq]
        · simp only [hEq, if_false, Nat.add_right_cancel_iff]
          have a1 : pre.length + 1 + firstPast f rest = pre.length + (firstPast f rest + 1) := by
            omega
          have a2 : pre.length + 1 + firstInRange f rest =
              pre.length + (firstInRange f rest + 1) := by omega
          rw [a1, a2]
          simp
      · have hb2 : isBefore f b = false := by simpa using hb
        have hs := profileLoop_started f blocks pre.length rest (pre ++ [b]) h2
        simp only [List.length_append, List.length_singleton] at hs
        simp only [profileLoop, hp2, hb2, if_true]
        rw [hs]
        simp [firstInRange, firstPast, List.findIdx_cons, hp2, hb2]
        congr 2; omega

theorem firstPast_le (f : FuncExtent) (blocks : List ProfileBlock) :
    firstPast f blocks ≤ blocks.length :=
  List.findIdx_le_length _

theorem firstInRange_le (f : FuncExtent) (blocks : List ProfileBlock) :
    firstInRange f blocks ≤ firstPast f blocks := by
  have h := @List.findIdx_le_length _ (fun b => !isBefore f b)
    (blocks.take (firstPast f blocks))
  have h2 := firstPast_le f blocks
  simp only [List.length_take] at h
  unfold firstInRange
  omega

/-- The matcher in closed form: it fails when no block below the first past
one is in range, and otherwise returns the slice between the two indices. -/
theorem profile_eq (f : FuncExtent) (p : Profile) :
    f.profile p =
      if firstInRange f p.Blocks = firstPast f p.Blocks then Except.error f.name
      else Except.ok ((p.Blocks.take (firstPast f p.Blocks)).drop
        (firstInRange f p.Blocks)) := by
  have h := profileLoop_unset f p.Blocks p.Blocks [] (by simp)
  simpa [FuncExtent.profile] using h

theorem firstPast_not_past (f : FuncExtent) (blocks : List ProfileBlock) (j : Nat)
    (hj : j < blocks.length) (hlt : j < firstPast f blocks) :
    isPast f blocks[j] = false :=
  List.not_of_lt_findIdx hlt

theorem firstPast_is_past (f : FuncExtent) (blocks : List ProfileBlock)
    (he : firstPast f blocks < blocks.length) :
    isPast f blocks[firstPast f blocks] = true :=
  List.findIdx_getElem

theorem firstInRange_before (f : FuncExtent) (blocks : List ProfileBlock) (j : Nat)
    (hj : j < blocks.length) (hlt : j < firstInRange f blocks) :
    isBefore f blocks[j] = true := by
  have h := @List.not_of_lt_findIdx _ (fun b => !isBefore f b)
    (blocks.take (firstPast f blocks)) j hlt
  simpa using h

theorem firstInRange_in_range (f : FuncExtent) (blocks : List ProfileBlock)
    (hs : firstInRange f blocks < firstPast f blocks)
    (hl : firstInRange f blocks < blocks.length) :
    isBefore f blocks[firstInRange f blocks] = false := by
  have hlen : (blocks.take (firstPast f blocks)).findIdx (fun b => !isBefore f b) <
      (blocks.take (firstPast f blocks)).length := by
    have := firstPast_le f blocks
    simp only [List.length_take]
    unfold firstInRange at hs
    omega
  have h := @List.findIdx_getElem _ (fun b => !isBefore f b)
    (blocks.take (firstPast f blocks)) hlen
  simpa [firstInRange] using h

theorem firstInRange_eq_iff (f : FuncExtent) (blocks : List ProfileBlock) :
    firstInRange f blocks = firstPast f blocks ↔
      ∀ b ∈ blocks.take (firstPast f blocks), isBefore f b = true := by
  have h := @List.findIdx_eq_length _ (fun b => !isBefore f b)
    (blocks.take (firstPast f blocks))
  have hle := firstPast_le f blocks
  simp only [List.length_take, Nat.min_eq_left hle, Bool.not_eq_false_eq_eq_true,
    Bool.not_eq_eq_eq_not, Bool.not_false] at h
  exact h

theorem isPast_eq_false_iff (f : FuncExtent) (b : ProfileBlock) :
    isPast f b = false ↔ posLt b.StartLine b.StartCol f.endLine f.endCol := by
  simp only [isPast, posLt, Bool.or_eq_false_iff, Bool.and_eq_false_iff, decide_eq_false_iff_not]
  omega

theorem isPast_eq_true_iff (f : FuncExtent) (b : ProfileBlock) :
    isPast f b = true ↔ posLe f.endLine f.endCol b.StartLine b.StartCol := by
  simp only [isPast, posLe, Bool.or_eq_true, Bool.and_eq_true, decide_eq_true_eq]
  omega

theorem isBefore_eq_false_iff (f : FuncExtent) (b : ProfileBlock) :
    isBefore f b = false ↔ posLt f.startLine f.startCol b.EndLine b.EndCol := by
  simp only [isBefore, posLt, Bool.or_eq_false_iff, Bool.and_eq_false_iff,
    decide_eq_false_iff_not]
  omega

theorem isBefore_eq_true_iff (f : FuncExtent) (b : ProfileBlock) :
    isBefore f b = true ↔ posLe b.EndLine b.EndCol f.startLine f.startCol := by
  simp only [isBefore, posLe, Bool.or_eq_true, Bool.and_eq_true, decide_eq_true_eq]

theorem slice_head (blocks : List ProfileBlock) (s e : Nat) (hse : s < e) :
    ((blocks.take e).drop s).head? = blocks[s]? := by
  rw [List.head?_drop, List.getElem?_take_of_lt hse]

theorem slice_getLast (blocks : List ProfileBlock) (s e : Nat) (hse : s < e)
    (he : e ≤ blocks.length) :
    ((blocks.take e).drop s).getLast? = blocks[e - 1]? := by
  rw [List.getLast?_eq_getElem?, List.getElem?_drop, List.length_drop, List.length_take,
    Nat.min_eq_left he, List.getElem?_take_of_lt (by omega)]
  congr 1
  omega

/-- A block in range found below the first past block makes `profile`
succeed, with the slice between the two indices. -/
theorem profile_ok_of_in_range (f : FuncExtent) (p : Profile) (i : Nat)
    (hi : i < p.Blocks.length) (hlt : i < firstPast f p.Blocks)
    (hb : isBefore f p.Blocks[i] = false) :
    f.profile p = Except.ok ((p.Blocks.take (firstPast f p.Blocks)).drop
      (firstInRange f p.Blocks)) ∧ firstInRange f p.Blocks < firstPast f p.Blocks := by
  have hle := firstInRange_le f p.Blocks
  have hne : firstInRange f p.Blocks ≠ firstPast f p.Blocks := by
    intro hEq
    have hall := (firstInRange_eq_iff f p.Blocks).mp hEq
    have hmem : p.Blocks[i] ∈ p.Blocks.take (firstPast f p.Blocks) :=
      List.mem_take_iff_getElem.mpr ⟨i, by omega, rfl⟩
    rw [hall _ hmem] at hb
    exact Bool.noConfusion hb
  rw [profile_eq]
  simp only [hne, if_false, true_and]
  omega

/-- The matcher on a list cut in three: blocks before the function, then a
non-empty run of blocks in range, then nothing or a block past the function. -/
theorem profile_of_decomp (f : FuncExtent) (fileName : GoString)
    (L M R : List ProfileBlock)
    (hL : ∀ a ∈ L, isBefore f a = true ∧ isPast f a = false)
    (hM : ∀ b ∈ M, isBefore f b = false ∧ isPast f b = false)
    (hMne : M ≠ [])
    (hR : ∀ c ∈ R.head?, isPast f c = true) :
    f.profile ⟨fileName, L ++ (M ++ R)⟩ = Except.ok M := by
  have hfpR : R.findIdx (isPast f) = 0 := by
    cases R with
    | nil => rfl
    | cons c R1 =>
      have hc := hR c (by simp)
      simp [List.findIdx_cons, hc]
  have hfpM : M.findIdx (isPast f) = M.length :=
    List.findIdx_eq_length_of_false (fun b hb => (hM b hb).2)
  have hfpL : L.findIdx (isPast f) = L.length :=
    List.findIdx_eq_length_of_false (fun a ha => (hL a ha).2)
  have hfp : firstPast f (L ++ (M ++ R)) = L.length + M.length := by
    unfold firstPast
    rw [List.findIdx_append, hfpL, if_neg (Nat.lt_irrefl _), List.findIdx_append, hfpM,
      if_neg (Nat.lt_irrefl _), hfpR]
    omega
  have htake : (L ++ (M ++ R)).take (L.length + M.length) = L ++ M := by
    rw [← List.append_assoc]
    exact List.take_left' (by simp)
  have hfi : firstInRange f (L ++ (M ++ R)) = L.length := by
    unfold firstInRange
    rw [hfp, htake, List.findIdx_append]
    have h1 : L.findIdx (fun b => !isBefore f b) = L.length :=
      List.findIdx_eq_length_of_false (fun a ha => by simp [(hL a ha).1])
    rw [h1, if_neg (Nat.lt_irrefl _)]
    cases M with
    | nil => exact absurd rfl hMne
    | cons m M1 =>
      have hm := (hM m (by simp)).1
      simp [List.findIdx_cons, hm]
  have hlen : L.length ≠ L.length + M.length := by
    have := List.length_pos.mpr hMne
    omega
  rw [profile_eq]
  simp only [hfp, hfi, htake, hlen, if_false, List.drop_left]

theorem within_not_past (f : FuncExtent) (b : ProfileBlock) (hw : Within f b)
    (hp : PositiveExtent b) : isPast f b = false := by
  rw [isPast_eq_false_iff]
  unfold Within PositiveExtent posLe posLt at *
  omega

theorem within_not_before (f : FuncExtent) (b : ProfileBlock) (hw : Within f b)
    (hp : PositiveExtent b) : isBefore f b = false := by
  rw [isBefore_eq_false_iff]
  unfold Within PositiveExtent posLe posLt at *
  omega

theorem past_of_later_func (f g : FuncExtent) (b : ProfileBlock)
    (hfg : posLe f.endLine f.endCol g.startLine g.startCol) (hw : Within g b) :
    isPast f b = true := by
  rw [isPast_eq_true_iff]
  unfold Within posLe at *
  omega

theorem before_of_earlier_func (f g : FuncExtent) (a : ProfileBlock)
    (hfg : posLe f.endLine f.endCol g.startLine g.startCol) (hw : Within f a) :
    isBefore g a = true := by
  rw [isBefore_eq_true_iff]
  unfold Within posLe at *
  omega

theorem not_past_of_earlier_func (f g : FuncExtent) (a c : ProfileBlock)
    (hfg : posLe f.endLine f.endCol g.startLine g.startCol)
    (hwa : Within f a) (hpa : PositiveExtent a)
    (hwc : Within g c) (hpc : PositiveExtent c) :
    isPast g a = false := by
  rw [isPast_eq_false_iff]
  unfold Within PositiveExtent posLe posLt at *
  omega

theorem not_past_of_startLe (f : FuncExtent) (a b : ProfileBlock)
    (h : startLe a b) (hb : isPast f b = false) : isPast f a = false := by
  rw [isPast_eq_false_iff] at *
  unfold startLe posLe posLt at *
  omega

theorem past_of_startLe (f : FuncExtent) (c d : ProfileBlock)
    (h : startLe c d) (hc : isPast f c = true) : isPast f d = true := by
  rw [isPast_eq_true_iff] at *
  unfold startLe posLe at *
  omega

/-- The partition law, generalised for the induction on the functions: `pre`
holds the blocks of the functions already handled. -/
theorem partition_aux (fileName : GoString) :
    ∀ (fs : List FuncExtent) (pre bs : List ProfileBlock),
      SortedDisjointFuncs fs → SortedBlocks bs →
      (∀ a ∈ pre, ∀ g ∈ fs, isBefore g a = true ∧ isPast g a = false) →
      (∀ b ∈ bs, ∃ g ∈ fs, Within g b) →
      (∀ b ∈ bs, PositiveExtent b) →
      (∀ g ∈ fs, ∃ b ∈ bs, Within g b) →
      ∃ rs : List (List ProfileBlock),
        List.Forall₂ (fun f r => f.profile ⟨fileName, pre ++ bs⟩ = Except.ok r) fs rs ∧
        rs.flatten = bs := by
  intro fs
  induction fs with
  | nil =>
    intro pre bs _ _ _ hw _ _
    have hbs : bs = [] := by
      cases bs with
      | nil => rfl
      | cons b bs1 =>
        obtain ⟨g, hg, _⟩ := hw b (List.mem_cons_self _ _)
        exact absurd hg (List.not_mem_nil g)
    subst hbs
    exact ⟨[], List.Forall₂.nil, rfl⟩
  | cons f fs ih =>
    intro pre bs hfs hsb hpre hw hpos hne
    have hfs2 := List.pairwise_cons.mp hfs
    have hMR : bs.takeWhile (fun b => !isPast f b) ++ bs.dropWhile (fun b => !isPast f b) = bs :=
      List.takeWhile_append_dropWhile _ bs
    have hMnp0 : ∀ b ∈ bs.takeWhile (fun b => !isPast f b), isPast f b = false := by
      intro b hb
      have h := List.mem_takeWhile_imp hb
      simpa using h
    have hRhead0 : ∀ c ∈ (bs.dropWhile (fun b => !isPast f b)).head?, isPast f c = true := by
      intro c hc
      have h := List.head?_dropWhile_not (fun b => !isPast f b) bs
      rw [Option.mem_def] at hc
      rw [hc] at h
      simpa using h
    have hMne0 : bs.takeWhile (fun b => !isPast f b) ≠ [] := by
      obtain ⟨b0, hb0, hwb0⟩ := hne f (List.mem_cons_self _ _)
      obtain ⟨l1, l2, hsplit⟩ := List.append_of_mem hb0
      have hnp0 := within_not_past f b0 hwb0 (hpos b0 hb0)
      have hl1 : ∀ a ∈ l1, (fun b => !isPast f b) a = true := by
        intro a ha
        have hsorted : startLe a b0 := by
          have hsb2 := hsb
          rw [hsplit] at hsb2
          exact (List.pairwise_append.mp hsb2).2.2 a ha b0 (List.mem_cons_self _ _)
        simp [not_past_of_startLe f a b0 hsorted hnp0]
      intro hnil
      rw [hsplit, List.takeWhile_append_of_pos hl1,
        List.takeWhile_cons_of_pos (by simp [hnp0])] at hnil
      simp at hnil
    generalize bs.takeWhile (fun b => !isPast f b) = M at hMR hMnp0 hMne0
    generalize bs.dropWhile (fun b => !isPast f b) = R at hMR hRhead0
    have hMsub : ∀ b ∈ M, b ∈ bs := by
      intro b hb
      rw [← hMR]
      exact List.mem_append_left _ hb
    have hRsub : ∀ b ∈ R, b ∈ bs := by
      intro b hb
      rw [← hMR]
      exact List.mem_append_right _ hb
    have hMw : ∀ b ∈ M, Within f b := by
      intro b hb
      obtain ⟨g, hg, hwg⟩ := hw b (hMsub b hb)
      rcases List.mem_cons.mp hg with hgf | hg2
      · rw [← hgf]; exact hwg
      · have hpast := past_of_later_func f g b (hfs2.1 g hg2).2 hwg
        rw [hMnp0 b hb] at hpast
        exact Bool.noConfusion hpast
    have hsR : SortedBlocks R := by
      have hsb2 := hsb
      rw [← hMR] at hsb2
      exact (List.pairwise_append.mp hsb2).2.1
    have hRp : ∀ c ∈ R, isPast f c = true := by
      intro c hc
      cases hRc : R with
      | nil => rw [hRc] at hc; exact absurd hc (List.not_mem_nil c)
      | cons c0 R1 =>
        rw [hRc] at hc hRhead0 hsR
        have hc0 := hRhead0 c0 (by simp)
        rcases List.mem_cons.mp hc with hcc | hc1
        · rw [hcc]; exact hc0
        · exact past_of_startLe f c0 c ((List.pairwise_cons.mp hsR).1 c hc1) hc0
    have hpre2 : ∀ a ∈ pre ++ M, ∀ g ∈ fs, isBefore g a = true ∧ isPast g a = false := by
      intro a ha g hg
      rcases List.mem_append.mp ha with hap | haM
      · exact hpre a hap g (List.mem_cons_of_mem _ hg)
      · obtain ⟨c, hc, hwc⟩ := hne g (List.mem_cons_of_mem _ hg)
        exact ⟨before_of_earlier_func f g a (hfs2.1 g hg).2 (hMw a haM),
          not_past_of_earlier_func f g a c (hfs2.1 g hg).2 (hMw a haM)
            (hpos a (hMsub a haM)) hwc (hpos c hc)⟩
    have hw2 : ∀ b ∈ R, ∃ g ∈ fs, Within g b := by
      intro b hb
      obtain ⟨g, hg, hwg⟩ := hw b (hRsub b hb)
      rcases List.mem_cons.mp hg with hgf | hg2
      · rw [hgf] at hwg
        have hnp := within_not_past f b hwg (hpos b (hRsub b hb))
        rw [hRp b hb] at hnp
        exact Bool.noConfusion hnp
      · exact ⟨g, hg2, hwg⟩
    have hne2 : ∀ g ∈ fs, ∃ b ∈ R, Within g b := by
      intro g hg
      obtain ⟨b, hb, hwb⟩ := hne g (List.mem_cons_of_mem _ hg)
      rw [← hMR] at hb
      rcases List.mem_append.mp hb with hbM | hbR
      · have hbef := (hpre2 b (List.mem_append_right _ hbM) g hg).1
        rw [within_not_before g b hwb (hpos b (hMsub b hbM))] at hbef
        exact Bool.noConfusion hbef
      · exact ⟨b, hbR, hwb⟩
    obtain ⟨rs, hall, hflat⟩ := ih (pre ++ M) R hfs2.2 hsR hpre2 hw2
      (fun b hb => hpos b (hRsub b hb)) hne2
    have hlist : pre ++ M ++ R = pre ++ bs := by
      rw [List.append_assoc, hMR]
    rw [hlist] at hall
    have hf : f.profile ⟨fileName, pre ++ bs⟩ = Except.ok M := by
      rw [← hMR]
      exact profile_of_decomp f fileName pre M R
        (fun a ha => hpre a ha f (List.mem_cons_self _ _))
        (fun b hb => ⟨within_not_before f b (hMw b hb) (hpos b (hMsub b hb)), hMnp0 b hb⟩)
        hMne0 hRhead0
    refine ⟨M :: rs, List.Forall₂.cons hf hall, ?_⟩
    rw [List.flatten_cons, hflat, hMR]

/-! ## Coverage aggregator -/

theorem wrap64_wrap64_add (t n : Int) : wrap64 (wrap64 t + n) = wrap64 (t + n) := by
  unfold wrap64
  omega

theorem wrap64_of_range (x : Int) (h1 : -2 ^ 63 ≤ x) (h2 : x < 2 ^ 63) : wrap64 x = x := by
  unfold wrap64
  omega

theorem coverageBlocksLoop_eq (blocks : List ProfileBlock) :
    ∀ c t : Int, coverageBlocksLoop blocks (wrap64 c) (wrap64 t) =
      (wrap64 (c + sumStmt (blocks.filter isCovered)), wrap64 (t + sumStmt blocks)) := by
  induction blocks with
  | nil =>
    intro c t
    simp [coverageBlocksLoop, sumStmt]
  | cons b rest ih =>
    intro c t
    by_cases hb : b.Count > 0
    · have hcov : isCovered b = true := by simp [isCovered, hb]
      simp only [coverageBlocksLoop, hb, if_true, wrap64_wrap64_add, ih, sumStmt,
        List.filter_cons_of_pos hcov, List.map_cons, List.sum_cons]
      simp only [Int.add_assoc]
    · have hcov : ¬ (isCovered b = true) := by simp [isCovered, hb]
      simp only [coverageBlocksLoop, hb, if_false, wrap64_wrap64_add, ih, sumStmt,
        List.filter_cons_of_neg hcov, List.map_cons, List.sum_cons]
      simp only [Int.add_assoc]

/-! ## Range formatter -/

theorem formatBlock_congr (a b : ProfileBlock) (h1 : a.StartLine = b.StartLine)
    (h2 : a.EndLine = b.EndLine) : formatBlock a = formatBlock b := by
  unfold formatBlock
  rw [h1, h2]

theorem lastEnd_getLast (run : List ProfileBlock) :
    ∀ b : ProfileBlock,
      lastEnd run b.EndLine = ((b :: run).getLast (List.cons_ne_nil b run)).EndLine := by
  induction run with
  | nil => intro b; rfl
  | cons c run ih =>
    intro b
    have h := ih c
    simp only [lastEnd, List.foldl_cons] at h ⊢
    rw [h, List.getLast_cons_cons]

theorem rangesOf_nil_cons (pieces : List (List ProfileBlock)) :
    rangesOf ([] :: pieces) = rangesOf pieces := by
  simp [rangesOf]

theorem rangesOf_cons_cons (b : ProfileBlock) (run : List ProfileBlock)
    (pieces : List (List ProfileBlock)) :
    rangesOf ((b :: run) :: pieces) = formatBlock (runRange (b :: run)) :: rangesOf pieces := by
  simp [rangesOf]

/-- The loop of `missingBlocks` against the runs of uncovered blocks, in its
two states: a range is being accumulated (`StartLine ≠ 0`) or not. -/
theorem missingBlocksLoop_spec (blocks : List ProfileBlock) :
    ∀ (out : List GoString) (acc : ProfileBlock),
      (∀ b ∈ blocks, ¬ b.Count > 0 → b.StartLine ≠ 0) →
      (acc.StartLine ≠ 0 →
        flushed (missingBlocksLoop blocks out acc) =
          out ++ formatBlock { acc with
              EndLine := lastEnd ((blocks.splitOnP isCovered).headD []) acc.EndLine } ::
            rangesOf (blocks.splitOnP isCovered).tail) ∧
      (acc.StartLine = 0 →
        flushed (missingBlocksLoop blocks out acc) =
          out ++ rangesOf (blocks.splitOnP isCovered)) := by
  induction blocks with
  | nil =>
    intro out acc _
    constructor
    · intro hacc
      simp [missingBlocksLoop, flushed, hacc, List.splitOnP_nil, lastEnd, rangesOf]
    · intro hacc
      simp [missingBlocksLoop, flushed, hacc, List.splitOnP_nil, rangesOf]
  | cons b rest ih =>
    intro out acc hline
    have hrest : ∀ c ∈ rest, ¬ c.Count > 0 → c.StartLine ≠ 0 :=
      fun c hc => hline c (List.mem_cons_of_mem _ hc)
    by_cases hb : b.Count > 0
    · have hcov : isCovered b = true := by simp [isCovered, hb]
      have hsplit : (b :: rest).splitOnP isCovered = [] :: rest.splitOnP isCovered := by
        rw [List.splitOnP_cons, if_pos hcov]
      constructor
      · intro hacc
        have h := (ih (out ++ [formatBlock acc]) { acc with StartLine := 0 } hrest).2 rfl
        simp only [missingBlocksLoop, hb, hacc, if_true, ne_eq, not_false_eq_true, hsplit,
          List.headD_cons, List.tail_cons, lastEnd, List.foldl_nil]
        rw [h, List.append_assoc]
        rfl
      · intro hacc
        have h := (ih out acc hrest).2 hacc
        simp only [missingBlocksLoop, hb, hacc, if_true, ne_eq, not_true_eq_false, if_false,
          hsplit, rangesOf_nil_cons]
        exact h
    · have hcov : ¬ (isCovered b = true) := by simp [isCovered, hb]
      obtain ⟨run, pieces, hrp⟩ : ∃ run pieces, rest.splitOnP isCovered = run :: pieces := by
        cases hsp : rest.splitOnP isCovered with
        | nil => exact absurd hsp (List.splitOnP_ne_nil _ _)
        | cons run pieces => exact ⟨run, pieces, rfl⟩
      have hsplit : (b :: rest).splitOnP isCovered = (b :: run) :: pieces := by
        rw [List.splitOnP_cons, if_neg hcov, hrp]
        rfl
      constructor
      · intro hacc
        have h := (ih out { acc with EndLine := b.EndLine } hrest).1 hacc
        simp only [missingBlocksLoop, hb, hacc, if_false, hsplit, List.headD_cons,
          List.tail_cons]
        rw [h, hrp]
        rfl
      · intro hacc
        have hbl : b.StartLine ≠ 0 := hline b (List.mem_cons_self _ _) hb
        have h := (ih out { acc with StartLine := b.StartLine, EndLine := b.EndLine }
          hrest).1 hbl
        simp only [missingBlocksLoop, hb, hacc, if_true, if_false, hsplit, rangesOf_cons_cons]
        rw [h, hrp]
        simp only [List.headD_cons, List.tail_cons]
        congr 2
        exact formatBlock_congr _ _ rfl (lastEnd_getLast run b)

theorem missingBlocksLoop_all_uncovered (blocks : List ProfileBlock) :
    ∀ (out : List GoString) (acc : ProfileBlock),
      (∀ c ∈ blocks, c.Count = 0) → acc.StartLine ≠ 0 →
      missingBlocksLoop blocks out acc =
        (out, { acc with EndLine := lastEnd blocks acc.EndLine }) := by
  induction blocks with
  | nil => intro out acc _ _; rfl
  | cons b rest ih =>
    intro out acc hall hacc
    have hb : ¬ b.Count > 0 := by
      have h0 := hall b (List.mem_cons_self _ _)
      omega
    have h := ih out { acc with EndLine := b.EndLine }
      (fun c hc => hall c (List.mem_cons_of_mem _ hc)) hacc
    simp only [missingBlocksLoop, hb, hacc, if_false]
    rw [h]
    rfl

theorem missingBlocksLoop_all_covered (blocks : List ProfileBlock) :
    ∀ (out : List GoString) (acc : ProfileBlock),
      (∀ c ∈ blocks, c.Count > 0) → acc.StartLine = 0 →
      missingBlocksLoop blocks out acc = (out, acc) := by
  induction blocks with
  | nil => intro out acc _ _; rfl
  | cons b rest ih =>
    intro out acc hall hacc
    have hb : b.Count > 0 := hall b (List.mem_cons_self _ _)
    have h := ih out acc (fun c hc => hall c (List.mem_cons_of_mem _ hc)) hacc
    simp only [missingBlocksLoop, hb, hacc, if_true, ne_eq, not_true_eq_false, if_false]
    exact h

theorem digitChar_ne_comma : ∀ n : Nat, n < 10 → Nat.digitChar n ≠ ',' := by
  decide

theorem toDigitsCore_no_comma :
    ∀ (fuel n : Nat) (ds : List Char), ',' ∉ ds → ',' ∉ Nat.toDigitsCore 10 fuel n ds := by
  intro fuel
  induction fuel with
  | zero => intro n ds h; simpa [Nat.toDigitsCore] using h
  | succ fuel ih =>
    intro n ds h
    have hd : ',' ∉ Nat.digitChar (n % 10) :: ds := by
      intro hmem
      rcases List.mem_cons.mp hmem with h1 | h1
      · exact digitChar_ne_comma _ (Nat.mod_lt _ (by decide)) h1.symm
      · exact h h1
    simp only [Nat.toDigitsCore]
    split
    · exact hd
    · exact ih _ _ hd

theorem fmtD_no_comma (x : Int) : ',' ∉ fmtD x := by
  cases x with
  | ofNat n => exact toDigitsCore_no_comma _ _ [] (List.not_mem_nil _)
  | negSucc n =>
    intro hmem
    rcases List.mem_cons.mp hmem with h1 | h1
    · exact absurd h1 (by decide)
    · exact toDigitsCore_no_comma _ _ [] (List.not_mem_nil _) h1

theorem formatBlock_no_comma (b : ProfileBlock) : ',' ∉ formatBlock b := by
  unfold formatBlock
  split
  · exact fmtD_no_comma _
  · intro hmem
    rcases List.mem_append.mp hmem with h1 | h1
    · rcases List.mem_append.mp h1 with h2 | h2
      · exact fmtD_no_comma _ h2
      · exact absurd (List.mem_singleton.mp h2) (by decide)
    · exact fmtD_no_comma _ h1

/-! ## Path elision -/

theorem agreeLen_le_left : ∀ a b : GoString, agreeLen a b ≤ a.length
  | [], _ => by simp [agreeLen]
  | _ :: _, [] => by simp [agreeLen]
  | x :: a, y :: b => by
    have h := agreeLen_le_left a b
    simp only [agreeLen, List.length_cons]
    split <;> omega

theorem agreeLen_le_right : ∀ a b : GoString, agreeLen a b ≤ b.length
  | [], _ => by simp [agreeLen]
  | _ :: _, [] => by simp [agreeLen]
  | x :: a, y :: b => by
    have h := agreeLen_le_right a b
    simp only [agreeLen, List.length_cons]
    split <;> omega

theorem commonPrefixLoop_eq (a b : GoString) :
    ∀ k i : Nat, i + k = min a.length b.length →
      commonPrefixLoop a b k i = i + agreeLen (a.drop i) (b.drop i) := by
  intro k
  induction k with
  | zero =>
    intro i hi
    have hdrop : a.drop i = [] ∨ b.drop i = [] := by
      rcases Nat.le_total a.length b.length with h | h
      · left
        exact List.drop_of_length_le (by omega)
      · right
        exact List.drop_of_length_le (by omega)
    rcases hdrop with h | h
    · simp [commonPrefixLoop, h, agreeLen]
    · have hz : agreeLen (a.drop i) [] = 0 := by
        cases a.drop i <;> simp [agreeLen]
      simp [commonPrefixLoop, h, hz]
  | succ k ih =>
    intro i hi
    have ha : i < a.length := by omega
    have hb : i < b.length := by omega
    have hda : a.drop i = a[i] :: a.drop (i + 1) := List.drop_eq_getElem_cons ha
    have hdb : b.drop i = b[i] :: b.drop (i + 1) := List.drop_eq_getElem_cons hb
    rw [hda, hdb]
    simp only [commonPrefixLoop, List.getElem?_eq_getElem ha, List.getElem?_eq_getElem hb,
      Option.some.injEq, agreeLen]
    by_cases hx : a[i] = b[i]
    · rw [if_pos hx, if_pos hx, ih (i + 1) (by omega)]
      omega
    · rw [if_neg hx, if_neg hx]
      rfl

/-- The function `commonPrefix` is the prefix of `a` of length `agreeLen a b`. -/
theorem commonPrefix_eq (a b : GoString) : commonPrefix a b = a.take (agreeLen a b) := by
  have hl : (if b.length < a.length then b.length else a.length) =
      min a.length b.length := by
    split <;> omega
  have h := commonPrefixLoop_eq a b (min a.length b.length) 0 (by omega)
  simp only [commonPrefix, hl, h, List.drop_zero, Nat.zero_add]

theorem take_agreeLen_prefix_right : ∀ a b : GoString, a.take (agreeLen a b) <+: b
  | [], _ => by simp [agreeLen]
  | _ :: _, [] => by simp [agreeLen]
  | x :: a, y :: b => by
    simp only [agreeLen]
    by_cases hx : x = y
    · rw [if_pos hx, List.take_succ_cons, hx]
      exact (List.prefix_cons_inj y).mpr (take_agreeLen_prefix_right a b)
    · rw [if_neg hx]
      simp

theorem prefix_take_agreeLen : ∀ (q a b : GoString), q <+: a → q <+: b →
    q <+: a.take (agreeLen a b)
  | [], _, _, _, _ => List.nil_prefix
  | c :: q, [], _, ha, _ => by simp at ha
  | c :: q, _ :: _, [], _, hb => by simp at hb
  | c :: q, x :: a, y :: b, ha, hb => by
    have hax := List.cons_prefix_cons.mp ha
    have hby := List.cons_prefix_cons.mp hb
    have hxy : x = y := by rw [← hax.1, ← hby.1]
    simp only [agreeLen, if_pos hxy, List.take_succ_cons]
    rw [hax.1]
    exact (List.prefix_cons_inj x).mpr (prefix_take_agreeLen q a b hax.2 hby.2)

theorem commonPrefix_prefix_left (a b : GoString) : commonPrefix a b <+: a := by
  rw [commonPrefix_eq]
  exact List.take_prefix _ _

theorem commonPrefix_prefix_right (a b : GoString) : commonPrefix a b <+: b := by
  rw [commonPrefix_eq]
  exact take_agreeLen_prefix_right a b

theorem prefix_commonPrefix (q a b : GoString) (ha : q <+: a) (hb : q <+: b) :
    q <+: commonPrefix a b := by
  rw [commonPrefix_eq]
  exact prefix_take_agreeLen q a b ha hb

/-- Folding `commonPrefix` over a list of strings gives their longest common
prefix: a common prefix of which every common prefix is a prefix. -/
theorem foldl_commonPrefix (rest : List GoString) :
    ∀ d0 : GoString,
      CommonPrefixOf (rest.foldl commonPrefix d0) (d0 :: rest) ∧
      ∀ q, CommonPrefixOf q (d0 :: rest) → q <+: rest.foldl commonPrefix d0 := by
  induction rest with
  | nil =>
    intro d0
    constructor
    · intro d hd
      rw [List.mem_singleton.mp hd]
      exact List.prefix_refl _
    · intro q hq
      exact hq d0 (List.mem_cons_self _ _)
  | cons d1 rest ih =>
    intro d0
    obtain ⟨h1, h2⟩ := ih (commonPrefix d0 d1)
    constructor
    · intro d hd
      have hp := h1 (commonPrefix d0 d1) (List.mem_cons_self _ _)
      rcases List.mem_cons.mp hd with hd0 | hd
      · rw [hd0]
        exact hp.trans (commonPrefix_prefix_left d0 d1)
      · rcases List.mem_cons.mp hd with hd1 | hd
        · rw [hd1]
          exact hp.trans (commonPrefix_prefix_right d0 d1)
        · exact h1 d (List.mem_cons_of_mem _ hd)
    · intro q hq
      apply h2
      intro d hd
      rcases List.mem_cons.mp hd with hd0 | hd
      · rw [hd0]
        exact prefix_commonPrefix q d0 d1 (hq d0 (List.mem_cons_self _ _))
          (hq d1 (List.mem_cons_of_mem _ (List.mem_cons_self _ _)))
      · exact hq d (List.mem_cons_of_mem _ (List.mem_cons_of_mem _ hd))

theorem agreeLen_stop : ∀ a b : GoString,
    agreeLen a b = min a.length b.length ∨
      (agreeLen a b < min a.length b.length ∧ a[agreeLen a b]? ≠ b[agreeLen a b]?)
  | [], _ => by simp [agreeLen]
  | _ :: _, [] => by simp [agreeLen]
  | x :: a, y :: b => by
    by_cases hx : x = y
    · simp only [agreeLen, if_pos hx, List.length_cons, List.getElem?_cons_succ]
      rcases agreeLen_stop a b with h | h
      · left
        omega
      · right
        exact ⟨by omega, h.2⟩
    · right
      simp only [agreeLen, if_neg hx, List.length_cons, List.getElem?_cons_zero]
      refine ⟨by omega, ?_⟩
      intro h
      exact hx (Option.some.inj h)

theorem agreeLen_self : ∀ d : GoString, agreeLen d d = d.length
  | [] => rfl
  | x :: d => by simp [agreeLen, agreeLen_self d]

theorem commonPrefix_length (a b : GoString) :
    (commonPrefix a b).length = agreeLen a b := by
  rw [commonPrefix_eq, List.length_take]
  exact Nat.min_eq_left (agreeLen_le_left a b)

theorem commonPrefix_self (d : GoString) : commonPrefix d d = d := by
  rw [commonPrefix_eq, agreeLen_self]
  exact List.take_length d

theorem foldl_commonPrefix_same (d : GoString) :
    ∀ rest : List GoString, (∀ x ∈ rest, x = d) → rest.foldl commonPrefix d = d := by
  intro rest
  induction rest with
  | nil => intro _; rfl
  | cons x rest ih =>
    intro h
    have hx : x = d := h x (List.mem_cons_self _ _)
    rw [List.foldl_cons, hx, commonPrefix_self]
    exact ih (fun y hy => h y (List.mem_cons_of_mem _ hy))

theorem pathOffset_all (Dir : GoString → GoString) (profiles : List Profile) :
    pathOffset Dir true profiles = 0 := rfl

theorem pathOffset_nil (Dir : GoString → GoString) (all : Bool) :
    pathOffset Dir all [] = 0 := by
  cases all <;> rfl

theorem pathOffset_single (Dir : GoString → GoString) (p : Profile) :
    pathOffset Dir false [p] =
      if (Dir p.FileName).length ≠ 0 then (Dir p.FileName).length + 1
      else (Dir p.FileName).length := rfl

theorem pathOffset_several (Dir : GoString → GoString) (p0 p1 : Profile)
    (ps : List Profile) :
    pathOffset Dir false (p0 :: p1 :: ps) =
      if ((Dir p1.FileName :: ps.map (fun p => Dir p.FileName)).foldl commonPrefix
          (Dir p0.FileName)).length ≠ 0 then
        ((Dir p1.FileName :: ps.map (fun p => Dir p.FileName)).foldl commonPrefix
          (Dir p0.FileName)).length + 1
      else ((Dir p1.FileName :: ps.map (fun p => Dir p.FileName)).foldl commonPrefix
          (Dir p0.FileName)).length := rfl

/-- The offset is at most one more than the length of the directory of any of
the files. -/
theorem pathOffset_le_dir (Dir : GoString → GoString) (all : Bool)
    (profiles : List Profile) :
    ∀ p ∈ profiles, pathOffset Dir all profiles ≤ (Dir p.FileName).length + 1 := by
  intro p hp
  cases all with
  | true => rw [pathOffset_all]; omega
  | false =>
    match profiles, hp with
    | [p0], hp =>
      rw [List.mem_singleton.mp hp, pathOffset_single]
      split <;> omega
    | p0 :: p1 :: ps, hp =>
      rw [pathOffset_several]
      obtain ⟨hc, _⟩ := foldl_commonPrefix
        (Dir p1.FileName :: ps.map (fun p => Dir p.FileName)) (Dir p0.FileName)
      have hmem : Dir p.FileName ∈
          Dir p0.FileName :: Dir p1.FileName :: ps.map (fun p => Dir p.FileName) := by
        have h := List.mem_map_of_mem (fun p => Dir p.FileName) hp
        simpa using h
      have hle := (hc _ hmem).length_le
      split <;> omega

/-! ## Non-empty ranges -/

theorem toDigitsCore_ne_nil :
    ∀ (fuel n : Nat) (ds : List Char), ds ≠ [] → Nat.toDigitsCore 10 fuel n ds ≠ [] := by
  intro fuel
  induction fuel with
  | zero => intro n ds h; simpa [Nat.toDigitsCore] using h
  | succ fuel ih =>
    intro n ds _
    simp only [Nat.toDigitsCore]
    split
    · exact List.cons_ne_nil _ _
    · exact ih _ _ (List.cons_ne_nil _ _)

theorem toDigits_ne_nil (n : Nat) : Nat.toDigits 10 n ≠ [] := by
  simp only [Nat.toDigits, Nat.toDigitsCore]
  split
  · exact List.cons_ne_nil _ _
  · exact toDigitsCore_ne_nil _ _ _ (List.cons_ne_nil _ _)

theorem fmtD_ne_nil (x : Int) : fmtD x ≠ [] := by
  cases x with
  | ofNat n => exact toDigits_ne_nil n
  | negSucc n => exact List.cons_ne_nil _ _

theorem formatBlock_ne_nil (b : ProfileBlock) : formatBlock b ≠ [] := by
  unfold formatBlock
  split
  · exact fmtD_ne_nil _
  · intro h
    have h1 := List.append_eq_nil.mp h
    have h2 := List.append_eq_nil.mp h1.1
    exact fmtD_ne_nil _ h2.1

theorem stringsJoin_ne_nil (x : GoString) (xs : List GoString) (sep : GoString)
    (hx : x ≠ []) : stringsJoin (x :: xs) sep ≠ [] := by
  cases xs with
  | nil => simpa [stringsJoin] using hx
  | cons y ys =>
    simp only [stringsJoin]
    intro h
    have h1 := List.append_eq_nil.mp h
    have h2 := List.append_eq_nil.mp h1.1
    exact hx h2.1

/-- A list with an uncovered block has a first range, and it is not empty. -/
theorem rangesOf_splitOnP_ne_nil (blocks : List ProfileBlock) :
    (∃ b ∈ blocks, isCovered b = false) →
    ∃ (x : GoString) (xs : List GoString),
      rangesOf (blocks.splitOnP isCovered) = x :: xs ∧ x ≠ [] := by
  induction blocks with
  | nil =>
    intro h
    obtain ⟨b, hb, _⟩ := h
    exact absurd hb (List.not_mem_nil b)
  | cons b rest ih =>
    intro h
    by_cases hcov : isCovered b = true
    · have hrest : ∃ c ∈ rest, isCovered c = false := by
        obtain ⟨c, hc, hcc⟩ := h
        rcases List.mem_cons.mp hc with h1 | h1
        · rw [h1, hcov] at hcc
          exact Bool.noConfusion hcc
        · exact ⟨c, h1, hcc⟩
      rw [List.splitOnP_cons, if_pos hcov, rangesOf_nil_cons]
      exact ih hrest
    · obtain ⟨run, pieces, hrp⟩ : ∃ run pieces, rest.splitOnP isCovered = run :: pieces := by
        cases hsp : rest.splitOnP isCovered with
        | nil => exact absurd hsp (List.splitOnP_ne_nil _ _)
        | cons run pieces => exact ⟨run, pieces, rfl⟩
      have hsplit : (b :: rest).splitOnP isCovered = (b :: run) :: pieces := by
        rw [List.splitOnP_cons, if_neg hcov, hrp]
        rfl
      rw [hsplit, rangesOf_cons_cons]
      exact ⟨_, _, rfl, formatBlock_ne_nil _⟩

/-- When every block is covered, `covered` and `total` are equal. -/
theorem coverageBlocks_all_covered (blocks : List ProfileBlock)
    (hall : ∀ b ∈ blocks, isCovered b = true) :
    (coverageBlocks blocks).1 = (coverageBlocks blocks).2 := by
  have h := coverageBlocksLoop_eq blocks 0 0
  have h0 : wrap64 0 = 0 := by decide
  rw [h0] at h
  have hc : coverageBlocks blocks = coverageBlocksLoop blocks 0 0 := rfl
  rw [hc, h, List.filter_eq_self.mpr hall]

/-! ## Argument splitting -/

theorem dashdash_hasPrefix : stringsHasPrefix "--".toList "-".toList = true := by
  decide

theorem ne_dashdash_of_not_hasPrefix (a : GoString)
    (h : stringsHasPrefix a "-".toList = false) : a ≠ "--".toList := by
  intro ha
  rw [ha, dashdash_hasPrefix] at h
  exact Bool.noConfusion h

/-- The loop on arguments without a leading dash up to the first `--`. -/
theorem splitArgsLoop_clean (post extraArgs : List GoString) :
    ∀ (pre done : List GoString),
      (∀ a ∈ pre, stringsHasPrefix a "-".toList = false) →
      splitArgsLoop (pre ++ "--".toList :: post) done.length
          (done ++ (pre ++ "--".toList :: post)) extraArgs =
        some (done ++ pre, post) := by
  intro pre
  induction pre with
  | nil =>
    intro done _
    have hlen : done.length + 1 ≤ (done ++ ([] ++ "--".toList :: post)).length := by
      simp
    simp only [List.nil_append] at hlen ⊢
    simp only [splitArgsLoop, if_true, hlen, List.take_left, List.append_nil]
    congr 2
    simp
  | cons a pre ih =>
    intro done h
    have ha := h a (List.mem_cons_self _ _)
    have hne := ne_dashdash_of_not_hasPrefix a ha
    have h2 := ih (done ++ [a]) (fun x hx => h x (List.mem_cons_of_mem _ hx))
    simp only [List.length_append, List.length_singleton, List.append_assoc,
      List.singleton_append] at h2
    simp only [List.cons_append, splitArgsLoop, if_neg hne, ha, Bool.false_eq_true, if_false]
    exact h2

/-- The loop on arguments without a leading dash and without `--`. -/
theorem splitArgsLoop_plain (args extraArgs : List GoString) :
    ∀ (rest : List GoString) (i : Nat),
      (∀ a ∈ rest, stringsHasPrefix a "-".toList = false) →
      splitArgsLoop rest i args extraArgs = some (args, extraArgs) := by
  intro rest
  induction rest with
  | nil => intro i _; rfl
  | cons a rest ih =>
    intro i h
    have ha := h a (List.mem_cons_self _ _)
    have hne := ne_dashdash_of_not_hasPrefix a ha
    simp only [splitArgsLoop, if_neg hne, ha, Bool.false_eq_true, if_false]
    exact ih (i + 1) (fun x hx => h x (List.mem_cons_of_mem _ hx))

/-- Once `args` is `nil`, the loop panics at the first `--`. -/
theorem splitArgsLoop_nil_panics (post : List GoString) :
    ∀ (pre : List GoString) (i : Nat) (extraArgs : List GoString),
      "--".toList ∉ pre →
      splitArgsLoop (pre ++ "--".toList :: post) i [] extraArgs = none := by
  intro pre
  induction pre with
  | nil =>
    intro i extraArgs _
    simp [splitArgsLoop]
  | cons a pre ih =>
    intro i extraArgs h
    have hne : a ≠ "--".toList := fun ha => h (ha ▸ List.mem_cons_self _ _)
    have hpre : "--".toList ∉ pre := fun hp => h (List.mem_cons_of_mem _ hp)
    simp only [List.cons_append, splitArgsLoop, if_neg hne]
    split
    · exact ih _ _ hpre
    · exact ih _ _ hpre

/-- An argument with a leading dash before the first `--` makes the loop
panic at that `--`. -/
theorem splitArgsLoop_dash_panics (post : List GoString) :
    ∀ (pre : List GoString) (i : Nat) (args extraArgs : List GoString),
      "--".toList ∉ pre →
      (∃ a ∈ pre, stringsHasPrefix a "-".toList = true) →
      splitArgsLoop (pre ++ "--".toList :: post) i args extraArgs = none := by
  intro pre
  induction pre with
  | nil =>
    intro i args extraArgs _ h
    obtain ⟨a, ha, _⟩ := h
    exact absurd ha (List.not_mem_nil a)
  | cons a pre ih =>
    intro i args extraArgs h hd
    have hne : a ≠ "--".toList := fun ha => h (ha ▸ List.mem_cons_self _ _)
    have hpre : "--".toList ∉ pre := fun hp => h (List.mem_cons_of_mem _ hp)
    simp only [List.cons_append, splitArgsLoop, if_neg hne]
    cases hda : stringsHasPrefix a "-".toList with
    | true =>
      simp only [if_true]
      exact splitArgsLoop_nil_panics post pre _ _ hpre
    | false =>
      simp only [Bool.false_eq_true, if_false]
      apply ih _ _ _ hpre
      obtain ⟨x, hx, hxd⟩ := hd
      rcases List.mem_cons.mp hx with h1 | h1
      · rw [h1, hda] at hxd
        exact Bool.noConfusion hxd
      · exact ⟨x, h1, hxd⟩

/-! ## Report driver -/

theorem trimPath_zero (fn : GoString) : trimPath fn 0 = some fn := by
  simp [trimPath]

theorem trimPath_eq_some (fn path : GoString) (offset : Nat)
    (h : trimPath fn offset = some path) : path = fn.drop offset := by
  unfold trimPath at h
  split at h
  · exact (Option.some.inj h).symm
  · exact Option.noConfusion h

/-- One turn of the loop on the functions, in default mode, for a function
named `_`: nothing is written and nothing is counted. -/
theorem funcsLoop_underscore_default (offset : Nat) (fn : GoString) (profile : Profile)
    (f : FuncExtent) (rest : List FuncExtent) (acc : Report) (blocks : List ProfileBlock)
    (hname : f.name = ['_']) (hp : f.profile profile = Except.ok blocks) :
    funcsLoop false offset fn profile (f :: rest) acc =
      funcsLoop false offset fn profile rest acc := by
  simp [funcsLoop, hp, hname]

/-- One turn of the loop on the functions, in full-detail mode: a line is
written for the function, whatever its name, and its statements are counted. -/
theorem funcsLoop_full_detail (fn : GoString) (profile : Profile)
    (f : FuncExtent) (rest : List FuncExtent) (acc : Report) (blocks : List ProfileBlock)
    (hp : f.profile profile = Except.ok blocks) :
    funcsLoop true 0 fn profile (f :: rest) acc =
      funcsLoop true 0 fn profile rest
        ⟨acc.lines ++ [⟨fn, f.startLine, f.name, (coverageBlocks blocks).1,
            (coverageBlocks blocks).2,
            if (coverageBlocks blocks).1 = (coverageBlocks blocks).2 then extentsBlocks blocks
            else missingBlocks blocks⟩],
          wrap64 (acc.covered + (coverageBlocks blocks).1),
          wrap64 (acc.total + (coverageBlocks blocks).2)⟩ := by
  by_cases hct : (coverageBlocks blocks).1 = (coverageBlocks blocks).2
  · simp [funcsLoop, hp, hct, trimPath_zero]
  · simp [funcsLoop, hp, hct, trimPath_zero]

/-- One turn of the loop on the functions, in default mode, for a function that
is not named `_`. -/
theorem funcsLoop_default (offset : Nat) (fn : GoString) (profile : Profile)
    (f : FuncExtent) (rest : List FuncExtent) (acc : Report) (blocks : List ProfileBlock)
    (hname : f.name ≠ ['_']) (hp : f.profile profile = Except.ok blocks) :
    funcsLoop false offset fn profile (f :: rest) acc =
      if (coverageBlocks blocks).1 = (coverageBlocks blocks).2 then
        funcsLoop false offset fn profile rest
          ⟨acc.lines, wrap64 (acc.covered + (coverageBlocks blocks).1),
            wrap64 (acc.total + (coverageBlocks blocks).2)⟩
      else
        match trimPath fn offset with
        | none => Except.error Abort.sliceBounds
        | some path =>
          funcsLoop false offset fn profile rest
            ⟨acc.lines ++ [⟨path, f.startLine, f.name, (coverageBlocks blocks).1,
                (coverageBlocks blocks).2, missingBlocks blocks⟩],
              wrap64 (acc.covered + (coverageBlocks blocks).1),
              wrap64 (acc.total + (coverageBlocks blocks).2)⟩ := by
  by_cases hct : (coverageBlocks blocks).1 = (coverageBlocks blocks).2
  · simp [funcsLoop, hp, hct, hname]
  · simp [funcsLoop, hp, hct, hname]

theorem funcsLoop_panic (all : Bool) (offset : Nat) (fn : GoString) (profile : Profile)
    (f : FuncExtent) (rest : List FuncExtent) (acc : Report) (v : GoString)
    (hp : f.profile profile = Except.error v) :
    funcsLoop all offset fn profile (f :: rest) acc = Except.error (Abort.panic v) := by
  simp [funcsLoop, hp]

/-- The two modes on the functions of one file: when the default mode
succeeds, so does the full-detail mode, and the lines of the default mode are
those of the full-detail mode that it keeps, with their paths trimmed. -/
theorem funcsLoop_modes (offset : Nat) (fn : GoString) (profile : Profile) :
    ∀ (funcs : List FuncExtent) (accD accA rd : Report),
      accD.lines = (accA.lines.filter keptByDefault).map (trimLine offset) →
      funcsLoop false offset fn profile funcs accD = Except.ok rd →
      ∃ ra : Report, funcsLoop true 0 fn profile funcs accA = Except.ok ra ∧
        rd.lines = (ra.lines.filter keptByDefault).map (trimLine offset) := by
  intro funcs
  induction funcs with
  | nil =>
    intro accD accA rd hinv hrun
    simp only [funcsLoop, Except.ok.injEq] at hrun
    exact ⟨accA, rfl, hrun ▸ hinv⟩
  | cons f rest ih =>
    intro accD accA rd hinv hrun
    cases hp : f.profile profile with
    | error v =>
      rw [funcsLoop_panic false offset fn profile f rest accD v hp] at hrun
      exact Except.noConfusion hrun
    | ok blocks =>
      rw [funcsLoop_full_detail fn profile f rest accA blocks hp]
      by_cases hname : f.name = ['_']
      · rw [funcsLoop_underscore_default offset fn profile f rest accD blocks hname hp] at hrun
        refine ih accD _ rd ?_ hrun
        simp [List.filter_append, keptByDefault, hname, hinv]
      · rw [funcsLoop_default offset fn profile f rest accD blocks hname hp] at hrun
        by_cases hct : (coverageBlocks blocks).1 = (coverageBlocks blocks).2
        · rw [if_pos hct] at hrun
          refine ih _ _ rd ?_ hrun
          simp [List.filter_append, keptByDefault, hct, hinv]
        · rw [if_neg hct] at hrun
          cases htp : trimPath fn offset with
          | none =>
            rw [htp] at hrun
            exact Except.noConfusion hrun
          | some path =>
            rw [htp] at hrun
            refine ih _ _ rd ?_ hrun
            have hpath := trimPath_eq_some fn path offset htp
            simp [List.filter_append, keptByDefault, hct, hname, hinv, trimLine, hpath]

/-- The two modes on the profiles. -/
theorem profilesLoop_modes (findFuncs : GoString → Except GoError (List FuncExtent))
    (offset : Nat) :
    ∀ (profiles : List Profile) (accD accA rd : Report),
      accD.lines = (accA.lines.filter keptByDefault).map (trimLine offset) →
      profilesLoop findFuncs false offset profiles accD = Except.ok rd →
      ∃ ra : Report, profilesLoop findFuncs true 0 profiles accA = Except.ok ra ∧
        rd.lines = (ra.lines.filter keptByDefault).map (trimLine offset) := by
  intro profiles
  induction profiles with
  | nil =>
    intro accD accA rd hinv hrun
    simp only [profilesLoop, Except.ok.injEq] at hrun
    exact ⟨accA, rfl, hrun ▸ hinv⟩
  | cons profile rest ih =>
    intro accD accA rd hinv hrun
    cases hff : findFuncs profile.FileName with
    | error err =>
      simp only [profilesLoop, hff] at hrun
      exact Except.noConfusion hrun
    | ok funcs =>
      simp only [profilesLoop, hff] at hrun ⊢
      cases hfl : funcsLoop false offset profile.FileName profile funcs accD with
      | error a =>
        rw [hfl] at hrun
        exact Except.noConfusion hrun
      | ok accD1 =>
        rw [hfl] at hrun
        obtain ⟨accA1, hA, hinv1⟩ :=
          funcsLoop_modes offset profile.FileName profile funcs accD accA accD1 hinv hfl
        rw [hA]
        exact ih accD1 accA1 rd hinv1 hrun

theorem percent_fixture :
    percent 1 1 = 100 ∧ percent 0 1 = 0 ∧ percent 4 5 = 80 ∧
    (7135 : ℚ) / 100 ≤ percent 5 7 ∧ percent 5 7 < (7145 : ℚ) / 100 := by
  refine ⟨?_, ?_, ?_, ?_, ?_⟩ <;> norm_num [percent]

theorem printCoverage_fixture_full_detail (Dir : GoString → GoString)
    (findFuncs : GoString → Except GoError (List FuncExtent))
    (hf : findFuncs fixtureFileName = Except.ok fixtureFuncs) :
    printCoverage Dir findFuncs true [fixtureProfile] =
      Except.ok ⟨[⟨fixtureFileName, 7, "tested".toList, 1, 1, "7-9".toList⟩,
        ⟨fixtureFileName, 11, "untested".toList, 0, 1, "11-13".toList⟩,
        ⟨fixtureFileName, 15, "partlytested".toList, 4, 5, "17-19".toList⟩], 5, 7⟩ := by
  have hf2 : findFuncs fixtureProfile.FileName = Except.ok fixtureFuncs := hf
  unfold printCoverage
  rw [pathOffset_all]
  simp only [profilesLoop, hf2]
  rfl

theorem printCoverage_fixture_default (Dir : GoString → GoString)
    (findFuncs : GoString → Except GoError (List FuncExtent))
    (hd : Dir fixtureFileName = "github.com/maruel/covg/testpkg".toList)
    (hf : findFuncs fixtureFileName = Except.ok fixtureFuncs) :
    printCoverage Dir findFuncs false [fixtureProfile] =
      Except.ok ⟨[⟨"testpkg.go".toList, 11, "untested".toList, 0, 1, "11-13".toList⟩,
        ⟨"testpkg.go".toList, 15, "partlytested".toList, 4, 5, "17-19".toList⟩], 5, 7⟩ := by
  have hf2 : findFuncs fixtureProfile.FileName = Except.ok fixtureFuncs := hf
  have hd2 : Dir fixtureProfile.FileName = "github.com/maruel/covg/testpkg".toList := hd
  have hoff : pathOffset Dir false [fixtureProfile] = 31 := by
    rw [pathOffset_single, hd2]
    decide
  unfold printCoverage
  rw [hoff]
  simp only [profilesLoop, hf2]
  rfl

/-! ## Claims on the block matcher -/

/-- C3: whenever `profile` does not fail, it returns `blocks[s:e]`, where `e`
is the index of the first block past the function (or the number of blocks
when none is past) and `s` is the smallest index below `e` whose block is not
before the function. -/
theorem profile_returns_slice (f : FuncExtent) (p : Profile) (r : List ProfileBlock)
    (h : f.profile p = Except.ok r) :
    ∃ s e : Nat, r = (p.Blocks.take e).drop s ∧ s < e ∧ e ≤ p.Blocks.length ∧
      (∀ (j : Nat) (hj : j < p.Blocks.length), j < e → isPast f p.Blocks[j] = false) ∧
      (∀ he : e < p.Blocks.length, isPast f p.Blocks[e] = true) ∧
      (∀ (j : Nat) (hj : j < p.Blocks.length), j < s → isBefore f p.Blocks[j] = true) ∧
      (∀ hs : s < p.Blocks.length, isBefore f p.Blocks[s] = false) := by
  rw [profile_eq] at h
  by_cases hEq : firstInRange f p.Blocks = firstPast f p.Blocks
  · simp [hEq] at h
  · simp only [hEq, if_false, Except.ok.injEq] at h
    have hle := firstInRange_le f p.Blocks
    have hlt : firstInRange f p.Blocks < firstPast f p.Blocks := by omega
    refine ⟨firstInRange f p.Blocks, firstPast f p.Blocks, h.symm, hlt,
      firstPast_le f p.Blocks, ?_, ?_, ?_, ?_⟩
    · intro j hj hje
      exact firstPast_not_past f p.Blocks j hj hje
    · intro he
      exact firstPast_is_past f p.Blocks he
    · intro j hj hjs
      exact firstInRange_before f p.Blocks j hj hjs
    · intro hs
      exact firstInRange_in_range f p.Blocks hlt hs

/-- C3, on a concrete input: a block before the function, two blocks in range
and a block past the function. -/
theorem profile_returns_slice_witness :
    ∃ s e : Nat,
      [(⟨6, 1, 7, 1, 1, 1⟩ : ProfileBlock), ⟨7, 5, 7, 9, 1, 0⟩] =
        (([⟨1, 1, 3, 1, 1, 1⟩, ⟨6, 1, 7, 1, 1, 1⟩, ⟨7, 5, 7, 9, 1, 0⟩, ⟨9, 1, 9, 5, 1, 0⟩] :
          List ProfileBlock).take e).drop s ∧ s < e :=
  match profile_returns_slice ⟨['f'], 5, 1, 8, 1⟩
      ⟨[], [⟨1, 1, 3, 1, 1, 1⟩, ⟨6, 1, 7, 1, 1, 1⟩, ⟨7, 5, 7, 9, 1, 0⟩, ⟨9, 1, 9, 5, 1, 0⟩]⟩
      [⟨6, 1, 7, 1, 1, 1⟩, ⟨7, 5, 7, 9, 1, 0⟩] rfl with
  | ⟨s, e, h1, h2, _⟩ => ⟨s, e, h1, h2⟩

/-- C4: `profile` fails, with the name of the function, if and only if every
block located before the first past-the-function block (every block of the
list when none is past) is before the function; this is so for the empty list.
In every other case it returns a non-empty list of blocks. -/
theorem profile_fails_iff (f : FuncExtent) (p : Profile) :
    (f.profile p = Except.error f.name ↔
      ∀ b ∈ p.Blocks.take (firstPast f p.Blocks), isBefore f b = true) ∧
    ((∃ r, f.profile p = Except.ok r ∧ r ≠ []) ↔
      ¬ ∀ b ∈ p.Blocks.take (firstPast f p.Blocks), isBefore f b = true) ∧
    (∀ name, f.profile p = Except.error name → name = f.name) ∧
    f.profile { p with Blocks := [] } = Except.error f.name := by
  have hiff := firstInRange_eq_iff f p.Blocks
  have hle := firstInRange_le f p.Blocks
  have hpl := firstPast_le f p.Blocks
  refine ⟨?_, ?_, ?_, ?_⟩
  · rw [profile_eq, ← hiff]
    by_cases hEq : firstInRange f p.Blocks = firstPast f p.Blocks <;> simp [hEq]
  · rw [profile_eq, ← hiff]
    by_cases hEq : firstInRange f p.Blocks = firstPast f p.Blocks
    · simp [hEq]
    · simp only [hEq, if_false, not_false_eq_true, iff_true]
      refine ⟨_, rfl, ?_⟩
      intro hnil
      have hlen := congrArg List.length hnil
      simp only [List.length_drop, List.length_take, List.length_nil] at hlen
      omega
  · intro name hname
    rw [profile_eq] at hname
    by_cases hEq : firstInRange f p.Blocks = firstPast f p.Blocks
    · simp only [hEq, if_true, Except.error.injEq] at hname
      exact hname.symm
    · simp [hEq] at hname
  · rfl

/-- C2, as stated, fails: on a sorted list of three blocks, one of which lies
within the function and another of which covers it, `profile` returns all three
blocks; the first starts before the function and the last ends after it. -/
theorem profile_contained_counterexample :
    SortedBlocks [⟨1, 1, 10, 1, 1, 1⟩, ⟨6, 1, 7, 1, 1, 1⟩, ⟨7, 5, 9, 1, 1, 0⟩] ∧
    (∃ b ∈ ([⟨1, 1, 10, 1, 1, 1⟩, ⟨6, 1, 7, 1, 1, 1⟩, ⟨7, 5, 9, 1, 1, 0⟩] : List ProfileBlock),
      Within ⟨['f'], 5, 1, 8, 1⟩ b ∧ PositiveExtent b) ∧
    (∃ b ∈ ([⟨1, 1, 10, 1, 1, 1⟩, ⟨6, 1, 7, 1, 1, 1⟩, ⟨7, 5, 9, 1, 1, 0⟩] : List ProfileBlock),
      posLe b.StartLine b.StartCol 5 1 ∧ posLe 8 1 b.EndLine b.EndCol) ∧
    FuncExtent.profile ⟨['f'], 5, 1, 8, 1⟩
        ⟨[], [⟨1, 1, 10, 1, 1, 1⟩, ⟨6, 1, 7, 1, 1, 1⟩, ⟨7, 5, 9, 1, 1, 0⟩]⟩ =
      Except.ok [⟨1, 1, 10, 1, 1, 1⟩, ⟨6, 1, 7, 1, 1, 1⟩, ⟨7, 5, 9, 1, 1, 0⟩] ∧
    ¬ posLe 5 1 (⟨1, 1, 10, 1, 1, 1⟩ : ProfileBlock).StartLine
        (⟨1, 1, 10, 1, 1, 1⟩ : ProfileBlock).StartCol ∧
    ¬ posLe (⟨7, 5, 9, 1, 1, 0⟩ : ProfileBlock).EndLine
        (⟨7, 5, 9, 1, 1, 0⟩ : ProfileBlock).EndCol 8 1 := by
  refine ⟨by decide, ⟨⟨6, 1, 7, 1, 1, 1⟩, by decide, by decide, by decide⟩,
    ⟨⟨1, 1, 10, 1, 1, 1⟩, by decide, by decide, by decide⟩, rfl, by decide, by decide⟩

/-- C2, amended: for a sorted block list in which a block of positive extent
lies within the span of the function, and in which no block straddles a
boundary of the function (every block that is neither before nor past the
function lies within its span), `profile` returns a non-empty contiguous
sub-sequence `blocks[s:e]` whose first block starts at or after the start of
the function and whose last block ends at or before its end. -/
theorem profile_contained (f : FuncExtent) (p : Profile)
    (hs : SortedBlocks p.Blocks)
    (hc : ∃ b ∈ p.Blocks, Within f b ∧ PositiveExtent b)
    (hn : ∀ b ∈ p.Blocks, isBefore f b = false → isPast f b = false → Within f b) :
    ∃ (r : List ProfileBlock) (s e : Nat) (first last : ProfileBlock),
      f.profile p = Except.ok r ∧ r ≠ [] ∧
      r = (p.Blocks.take e).drop s ∧ s < e ∧ e ≤ p.Blocks.length ∧
      r.head? = some first ∧ r.getLast? = some last ∧
      posLe f.startLine f.startCol first.StartLine first.StartCol ∧
      posLe last.EndLine last.EndCol f.endLine f.endCol := by
  obtain ⟨b0, hb0mem, hw, hpos⟩ := hc
  obtain ⟨i0, hi0, hb0⟩ := List.getElem_of_mem hb0mem
  have hnp0 : isPast f b0 = false := by
    rw [isPast_eq_false_iff]
    unfold Within PositiveExtent posLe posLt at *
    omega
  have hnb0 : isBefore f b0 = false := by
    rw [isBefore_eq_false_iff]
    unfold Within PositiveExtent posLe posLt at *
    omega
  have hpl := firstPast_le f p.Blocks
  have hi0e : i0 < firstPast f p.Blocks := by
    by_contra hge
    have hge2 : firstPast f p.Blocks ≤ i0 := Nat.le_of_not_lt hge
    have hel : firstPast f p.Blocks < p.Blocks.length := by omega
    have hpast := firstPast_is_past f p.Blocks hel
    rcases Nat.eq_or_lt_of_le hge2 with heq | hlt
    · have hsame : p.Blocks[firstPast f p.Blocks] = b0 := by
        rw [← hb0]
        congr 1
      rw [hsame, hnp0] at hpast
      exact Bool.noConfusion hpast
    · have hsorted := (List.pairwise_iff_getElem.mp hs) _ _ hel hi0 hlt
      rw [hb0] at hsorted
      rw [isPast_eq_true_iff] at hpast
      unfold startLe at hsorted
      unfold Within PositiveExtent posLe posLt at *
      omega
  have hbi0 : isBefore f p.Blocks[i0] = false := by rw [hb0]; exact hnb0
  obtain ⟨hok, hlt⟩ := profile_ok_of_in_range f p i0 hi0 hi0e hbi0
  have hsl : firstInRange f p.Blocks < p.Blocks.length := by omega
  have hel : firstPast f p.Blocks - 1 < p.Blocks.length := by omega
  have hhead := slice_head p.Blocks _ _ hlt
  have hlast := slice_getLast p.Blocks _ _ hlt hpl
  rw [List.getElem?_eq_getElem hsl] at hhead
  rw [List.getElem?_eq_getElem hel] at hlast
  refine ⟨_, firstInRange f p.Blocks, firstPast f p.Blocks, _, _, hok, ?_, rfl, hlt, hpl,
    hhead, hlast, ?_, ?_⟩
  · intro hnil
    rw [hnil] at hhead
    exact Option.noConfusion hhead
  · have h1 := firstInRange_in_range f p.Blocks hlt hsl
    have h2 := firstPast_not_past f p.Blocks _ hsl hlt
    exact (hn _ (List.getElem_mem hsl) h1 h2).1
  · have h2 := firstPast_not_past f p.Blocks _ hel (by omega)
    cases h1 : isBefore f p.Blocks[firstPast f p.Blocks - 1] with
    | false => exact (hn _ (List.getElem_mem hel) h1 h2).2
    | true =>
      rw [isBefore_eq_true_iff] at h1
      unfold Within PositiveExtent posLe posLt at *
      omega

/-- C2, amended, on a concrete input: two blocks before the function, two
within it and one past it. -/
theorem profile_contained_witness :
    ∃ (r : List ProfileBlock) (s e : Nat) (first last : ProfileBlock),
      FuncExtent.profile ⟨['f'], 5, 1, 8, 2⟩
        ⟨[], [⟨1, 1, 3, 1, 1, 1⟩, ⟨3, 2, 4, 1, 1, 1⟩, ⟨5, 10, 6, 1, 1, 1⟩,
          ⟨6, 5, 8, 2, 1, 0⟩, ⟨9, 1, 9, 5, 1, 0⟩]⟩ = Except.ok r ∧ r ≠ [] ∧
      r = (([⟨1, 1, 3, 1, 1, 1⟩, ⟨3, 2, 4, 1, 1, 1⟩, ⟨5, 10, 6, 1, 1, 1⟩,
          ⟨6, 5, 8, 2, 1, 0⟩, ⟨9, 1, 9, 5, 1, 0⟩] : List ProfileBlock).take e).drop s ∧
      s < e ∧ e ≤ 5 ∧
      r.head? = some first ∧ r.getLast? = some last ∧
      posLe 5 1 first.StartLine first.StartCol ∧
      posLe last.EndLine last.EndCol 8 2 :=
  profile_contained ⟨['f'], 5, 1, 8, 2⟩
    ⟨[], [⟨1, 1, 3, 1, 1, 1⟩, ⟨3, 2, 4, 1, 1, 1⟩, ⟨5, 10, 6, 1, 1, 1⟩,
      ⟨6, 5, 8, 2, 1, 0⟩, ⟨9, 1, 9, 5, 1, 0⟩]⟩
    (by decide) ⟨⟨5, 10, 6, 1, 1, 1⟩, by decide, by decide, by decide⟩ (by decide)

/-- C1, as stated, fails on two inputs that meet its hypotheses (sorted blocks,
sorted non-overlapping functions, every block within some function). On the
first, the second function has no block and `profile` fails for it, so there
is nothing to concatenate. On the second, a block of zero extent sits on the
boundary between the two functions; it is past the first and before the
second, so the concatenation misses it and counts 2 statements out of 3. -/
theorem profile_partition_counterexample :
    (SortedBlocks [⟨1, 5, 2, 1, 1, 1⟩] ∧
      SortedDisjointFuncs [⟨['f'], 1, 1, 3, 1⟩, ⟨['g'], 5, 1, 8, 1⟩] ∧
      (∀ b ∈ ([⟨1, 5, 2, 1, 1, 1⟩] : List ProfileBlock),
        ∃ f ∈ ([⟨['f'], 1, 1, 3, 1⟩, ⟨['g'], 5, 1, 8, 1⟩] : List FuncExtent), Within f b) ∧
      FuncExtent.profile ⟨['g'], 5, 1, 8, 1⟩ ⟨[], [⟨1, 5, 2, 1, 1, 1⟩]⟩ =
        Except.error ['g']) ∧
    (SortedBlocks [⟨1, 5, 2, 1, 1, 1⟩, ⟨3, 1, 3, 1, 1, 1⟩, ⟨4, 1, 5, 1, 1, 1⟩] ∧
      SortedDisjointFuncs [⟨['f'], 1, 1, 3, 1⟩, ⟨['g'], 3, 1, 8, 1⟩] ∧
      (∀ b ∈ ([⟨1, 5, 2, 1, 1, 1⟩, ⟨3, 1, 3, 1, 1, 1⟩, ⟨4, 1, 5, 1, 1, 1⟩] : List ProfileBlock),
        ∃ f ∈ ([⟨['f'], 1, 1, 3, 1⟩, ⟨['g'], 3, 1, 8, 1⟩] : List FuncExtent), Within f b) ∧
      FuncExtent.profile ⟨['f'], 1, 1, 3, 1⟩
          ⟨[], [⟨1, 5, 2, 1, 1, 1⟩, ⟨3, 1, 3, 1, 1, 1⟩, ⟨4, 1, 5, 1, 1, 1⟩]⟩ =
        Except.ok [⟨1, 5, 2, 1, 1, 1⟩] ∧
      FuncExtent.profile ⟨['g'], 3, 1, 8, 1⟩
          ⟨[], [⟨1, 5, 2, 1, 1, 1⟩, ⟨3, 1, 3, 1, 1, 1⟩, ⟨4, 1, 5, 1, 1, 1⟩]⟩ =
        Except.ok [⟨4, 1, 5, 1, 1, 1⟩] ∧
      ([⟨1, 5, 2, 1, 1, 1⟩] ++ [⟨4, 1, 5, 1, 1, 1⟩] : List ProfileBlock) ≠
        [⟨1, 5, 2, 1, 1, 1⟩, ⟨3, 1, 3, 1, 1, 1⟩, ⟨4, 1, 5, 1, 1, 1⟩] ∧
      (coverageBlocks ([⟨1, 5, 2, 1, 1, 1⟩] ++ [⟨4, 1, 5, 1, 1, 1⟩])).2 = 2 ∧
      (coverageBlocks [⟨1, 5, 2, 1, 1, 1⟩, ⟨3, 1, 3, 1, 1, 1⟩, ⟨4, 1, 5, 1, 1, 1⟩]).2 = 3) := by
  refine ⟨⟨by decide, by decide, by decide, rfl⟩,
    ⟨by decide, by decide, by decide, rfl, rfl, by decide, by decide, by decide⟩⟩

/-- C1, amended: for a file whose block list is sorted by start position and
whose function extents are sorted and non-overlapping, if every block has a
positive extent and lies within the span of some function, and every function
has at least one block within its span, then `profile` succeeds for every
function and the concatenation of its results, in function order, is exactly
the block list of the file; so the total statement count of the concatenation
is that of the file. -/
theorem profile_partition (funcs : List FuncExtent) (p : Profile)
    (hs : SortedBlocks p.Blocks) (hf : SortedDisjointFuncs funcs)
    (hw : ∀ b ∈ p.Blocks, ∃ f ∈ funcs, Within f b)
    (hpos : ∀ b ∈ p.Blocks, PositiveExtent b)
    (hne : ∀ f ∈ funcs, ∃ b ∈ p.Blocks, Within f b) :
    ∃ rs : List (List ProfileBlock),
      List.Forall₂ (fun f r => f.profile p = Except.ok r) funcs rs ∧
      rs.flatten = p.Blocks ∧
      (coverageBlocks rs.flatten).2 = (coverageBlocks p.Blocks).2 := by
  obtain ⟨rs, hall, hflat⟩ := partition_aux p.FileName funcs [] p.Blocks hf hs
    (fun a ha => absurd ha (List.not_mem_nil a)) hw hpos hne
  refine ⟨rs, ?_, hflat, by rw [hflat]⟩
  simpa using hall

/-- C1, amended, on a concrete input: two functions with two blocks and one
block. -/
theorem profile_partition_witness :
    ∃ rs : List (List ProfileBlock),
      List.Forall₂
        (fun f r => FuncExtent.profile f
          ⟨[], [⟨1, 5, 2, 1, 1, 1⟩, ⟨2, 1, 3, 1, 2, 0⟩, ⟨5, 9, 8, 1, 1, 1⟩]⟩ = Except.ok r)
        [⟨['f'], 1, 1, 3, 1⟩, ⟨['g'], 5, 1, 8, 1⟩] rs ∧
      rs.flatten = [⟨1, 5, 2, 1, 1, 1⟩, ⟨2, 1, 3, 1, 2, 0⟩, ⟨5, 9, 8, 1, 1, 1⟩] ∧
      (coverageBlocks rs.flatten).2 =
        (coverageBlocks [⟨1, 5, 2, 1, 1, 1⟩, ⟨2, 1, 3, 1, 2, 0⟩, ⟨5, 9, 8, 1, 1, 1⟩]).2 :=
  profile_partition [⟨['f'], 1, 1, 3, 1⟩, ⟨['g'], 5, 1, 8, 1⟩]
    ⟨[], [⟨1, 5, 2, 1, 1, 1⟩, ⟨2, 1, 3, 1, 2, 0⟩, ⟨5, 9, 8, 1, 1, 1⟩]⟩
    (by decide) (by decide) (by decide) (by decide) (by decide)

/-! ## Claims on the coverage aggregator -/

/-- C8: `coverageBlocks` returns `(covered, total)` where `total` is the sum
of the statement counts of all blocks and `covered` the sum of the statement
counts of exactly the blocks whose hit count is greater than zero; the sums are
`int64` sums, hence the exact sums whenever these fit in 64 bits; on the empty
list the result is `(0, 0)`. -/
theorem coverageBlocks_sums (blocks : List ProfileBlock) :
    coverageBlocks blocks =
      (wrap64 (sumStmt (blocks.filter (fun b => decide (b.Count > 0)))),
        wrap64 (sumStmt blocks)) ∧
    (-2 ^ 63 ≤ sumStmt blocks ∧ sumStmt blocks < 2 ^ 63 →
      (coverageBlocks blocks).2 = sumStmt blocks) ∧
    (-2 ^ 63 ≤ sumStmt (blocks.filter (fun b => decide (b.Count > 0))) ∧
        sumStmt (blocks.filter (fun b => decide (b.Count > 0))) < 2 ^ 63 →
      (coverageBlocks blocks).1 = sumStmt (blocks.filter (fun b => decide (b.Count > 0)))) ∧
    coverageBlocks [] = (0, 0) := by
  have h := coverageBlocksLoop_eq blocks 0 0
  have h0 : wrap64 0 = 0 := by decide
  rw [h0] at h
  simp only [Int.zero_add] at h
  have hc : coverageBlocks blocks =
      (wrap64 (sumStmt (blocks.filter (fun b => decide (b.Count > 0)))),
        wrap64 (sumStmt blocks)) := h
  refine ⟨hc, ?_, ?_, rfl⟩
  · intro hr
    rw [hc]
    exact wrap64_of_range _ hr.1 hr.2
  · intro hr
    rw [hc]
    exact wrap64_of_range _ hr.1 hr.2

/-- C8, on the blocks of the fixture package: 5 statements covered out of 7. -/
theorem coverageBlocks_sums_witness :
    coverageBlocks [⟨7, 22, 9, 2, 1, 1⟩, ⟨11, 24, 13, 2, 1, 0⟩, ⟨15, 34, 17, 7, 2, 1⟩,
      ⟨17, 7, 19, 3, 1, 0⟩, ⟨19, 8, 21, 3, 1, 1⟩, ⟨22, 2, 22, 10, 1, 1⟩] = (5, 7) :=
  ((coverageBlocks_sums [⟨7, 22, 9, 2, 1, 1⟩, ⟨11, 24, 13, 2, 1, 0⟩, ⟨15, 34, 17, 7, 2, 1⟩,
      ⟨17, 7, 19, 3, 1, 0⟩, ⟨19, 8, 21, 3, 1, 1⟩, ⟨22, 2, 22, 10, 1, 1⟩]).1).trans
    (by decide)

/-! ## Claims on the range formatter -/

/-- C5, as stated, fails on a run whose first block has start line 0, the
value `missingBlocks` uses for "no range accumulated": the two uncovered
blocks form one run from line 0 to line 4, and the result is `3-4`. -/
theorem missingBlocks_runs_counterexample :
    missingBlocks [⟨0, 1, 2, 1, 1, 0⟩, ⟨3, 1, 4, 1, 1, 0⟩] = ['3', '-', '4'] ∧
    uncoveredRuns [⟨0, 1, 2, 1, 1, 0⟩, ⟨3, 1, 4, 1, 1, 0⟩] =
      [[⟨0, 1, 2, 1, 1, 0⟩, ⟨3, 1, 4, 1, 1, 0⟩]] ∧
    stringsJoin ((uncoveredRuns [⟨0, 1, 2, 1, 1, 0⟩, ⟨3, 1, 4, 1, 1, 0⟩]).map
      (fun run => formatBlock (runRange run))) [','] = ['0', '-', '4'] := by
  refine ⟨by decide, by decide, by decide⟩

/-- C5, amended: for every block list whose uncovered blocks all have a
non-zero start line, `missingBlocks` returns the comma-joined list, in block
order, of one range per maximal run of consecutive uncovered blocks (hit count
not greater than zero, no covered block in between), each range rendered by
`formatBlock` from the start line of the first block of the run to the end line
of its last block. -/
theorem missingBlocks_runs (blocks : List ProfileBlock)
    (hline : ∀ b ∈ blocks, b.Count ≤ 0 → b.StartLine ≠ 0) :
    missingBlocks blocks =
      stringsJoin ((uncoveredRuns blocks).map (fun run => formatBlock (runRange run)))
        [','] := by
  have h := (missingBlocksLoop_spec blocks [] zeroBlock
    (fun b hb hc => hline b hb (Int.not_lt.mp hc))).2 rfl
  have h2 : missingBlocks blocks =
      stringsJoin (flushed (missingBlocksLoop blocks [] zeroBlock)) [','] := rfl
  rw [h2, h]
  rfl

/-- C5, amended, on a concrete input: two runs of uncovered blocks, the first
over lines that are not contiguous, around a covered block. -/
theorem missingBlocks_runs_witness :
    missingBlocks [⟨7, 1, 9, 2, 1, 1⟩, ⟨11, 1, 13, 2, 1, 0⟩, ⟨15, 1, 15, 9, 1, 0⟩,
        ⟨16, 1, 16, 9, 1, 3⟩, ⟨17, 7, 19, 3, 1, 0⟩] =
      stringsJoin ((uncoveredRuns [⟨7, 1, 9, 2, 1, 1⟩, ⟨11, 1, 13, 2, 1, 0⟩,
        ⟨15, 1, 15, 9, 1, 0⟩, ⟨16, 1, 16, 9, 1, 3⟩, ⟨17, 7, 19, 3, 1, 0⟩]).map
          (fun run => formatBlock (runRange run))) [','] ∧
    missingBlocks [⟨7, 1, 9, 2, 1, 1⟩, ⟨11, 1, 13, 2, 1, 0⟩, ⟨15, 1, 15, 9, 1, 0⟩,
        ⟨16, 1, 16, 9, 1, 3⟩, ⟨17, 7, 19, 3, 1, 0⟩] =
      ['1', '1', '-', '1', '5', ',', '1', '7', '-', '1', '9'] :=
  ⟨missingBlocks_runs _ (by decide), by decide⟩

/-- C6, as stated, fails on a single uncovered block with start line 0: the
result is empty, not the range `0-3` of that block. -/
theorem missingBlocks_all_uncovered_counterexample :
    (∀ b ∈ ([⟨0, 1, 3, 9, 1, 0⟩] : List ProfileBlock), b.Count = 0) ∧
    missingBlocks [⟨0, 1, 3, 9, 1, 0⟩] = [] ∧
    formatBlock (runRange [⟨0, 1, 3, 9, 1, 0⟩]) = ['0', '-', '3'] := by
  refine ⟨by decide, by decide, by decide⟩

/-- C6, amended: for every non-empty block list in which every block is
uncovered (hit count `== 0`) and whose first block has a non-zero start line,
`missingBlocks` returns exactly one range, the single-block format of the span
from the start line of the first block to the end line of the last block; there
is no comma in the result. -/
theorem missingBlocks_all_uncovered (blocks : List ProfileBlock) (hne : blocks ≠ [])
    (hall : ∀ b ∈ blocks, b.Count = 0) (hline : (blocks.head hne).StartLine ≠ 0) :
    missingBlocks blocks =
      formatBlock { zeroBlock with
        StartLine := (blocks.head hne).StartLine
        EndLine := (blocks.getLast hne).EndLine } ∧
    ',' ∉ missingBlocks blocks := by
  cases blocks with
  | nil => exact absurd rfl hne
  | cons b rest =>
    have hb : ¬ b.Count > 0 := by
      have h0 := hall b (List.mem_cons_self _ _)
      omega
    have hline2 : b.StartLine ≠ 0 := hline
    have hloop := missingBlocksLoop_all_uncovered rest []
      { zeroBlock with StartLine := b.StartLine, EndLine := b.EndLine }
      (fun c hc => hall c (List.mem_cons_of_mem _ hc)) hline2
    have hstep : missingBlocksLoop (b :: rest) [] zeroBlock =
        missingBlocksLoop rest []
          { zeroBlock with StartLine := b.StartLine, EndLine := b.EndLine } := by
      simp only [missingBlocksLoop, hb, if_false]
      rfl
    have hm : missingBlocks (b :: rest) =
        formatBlock { zeroBlock with
          StartLine := b.StartLine
          EndLine := ((b :: rest).getLast hne).EndLine } := by
      have h2 : missingBlocks (b :: rest) =
          stringsJoin (flushed (missingBlocksLoop (b :: rest) [] zeroBlock)) [','] := rfl
      rw [h2, hstep, hloop]
      simp only [flushed, ne_eq, hline2, not_false_eq_true, if_true, List.nil_append,
        stringsJoin]
      exact formatBlock_congr _ _ rfl (lastEnd_getLast rest b)
    refine ⟨hm, ?_⟩
    rw [hm]
    exact formatBlock_no_comma _

/-- C6, amended, on the uncovered blocks of lines 11 to 19. -/
theorem missingBlocks_all_uncovered_witness :
    missingBlocks [⟨11, 24, 13, 2, 1, 0⟩, ⟨17, 7, 19, 3, 1, 0⟩] =
      ['1', '1', '-', '1', '9'] ∧
    ',' ∉ missingBlocks [⟨11, 24, 13, 2, 1, 0⟩, ⟨17, 7, 19, 3, 1, 0⟩] :=
  missingBlocks_all_uncovered [⟨11, 24, 13, 2, 1, 0⟩, ⟨17, 7, 19, 3, 1, 0⟩]
    (by decide) (by decide) (by decide)

/-- C7: for every block list in which every block is covered (hit count
greater than zero), the empty list included, `missingBlocks` returns the empty
string. -/
theorem missingBlocks_all_covered (blocks : List ProfileBlock)
    (hall : ∀ b ∈ blocks, b.Count > 0) : missingBlocks blocks = [] := by
  have h := missingBlocksLoop_all_covered blocks [] zeroBlock hall rfl
  have h2 : missingBlocks blocks =
      stringsJoin (flushed (missingBlocksLoop blocks [] zeroBlock)) [','] := rfl
  rw [h2, h]
  rfl

/-- C7, on a list of two covered blocks and on the empty list. -/
theorem missingBlocks_all_covered_witness :
    missingBlocks [⟨7, 22, 9, 2, 1, 1⟩, ⟨15, 34, 17, 7, 2, 4⟩] = [] ∧ missingBlocks [] = [] :=
  ⟨missingBlocks_all_covered [⟨7, 22, 9, 2, 1, 1⟩, ⟨15, 34, 17, 7, 2, 4⟩] (by decide),
    missingBlocks_all_covered [] (by decide)⟩

/-! ## Claims on path elision -/

/-- C9: on the files `/a/b/c.go` and `/a/d/e.go`, of directories `/a/b` and
`/a/d`, the code computes the offset 4 and not `len("/a")+1 = 3`: the longest
common prefix of the directories is `/a/`, separator included, and the offset
is one more than its length, so the printed paths are `/c.go` and `/e.go`. In
general, with two or more directories the offset is the length of their longest
common prefix plus one when that length is non-zero, and zero otherwise. -/
theorem pathOffset_sibling_dirs (Dir : GoString → GoString)
    (h1 : Dir "/a/b/c.go".toList = "/a/b".toList)
    (h2 : Dir "/a/d/e.go".toList = "/a/d".toList) :
    pathOffset Dir false [⟨"/a/b/c.go".toList, []⟩, ⟨"/a/d/e.go".toList, []⟩] = 4 ∧
    commonPrefix "/a/b".toList "/a/d".toList = "/a/".toList ∧
    trimPath "/a/b/c.go".toList 4 = some "/c.go".toList ∧
    trimPath "/a/d/e.go".toList 4 = some "/e.go".toList ∧
    ∀ (p0 p1 : Profile) (ps : List Profile),
      ∃ pfx : GoString,
        CommonPrefixOf pfx ((p0 :: p1 :: ps).map (fun p => Dir p.FileName)) ∧
        (∀ q, CommonPrefixOf q ((p0 :: p1 :: ps).map (fun p => Dir p.FileName)) →
          q <+: pfx) ∧
        pathOffset Dir false (p0 :: p1 :: ps) =
          if pfx.length = 0 then 0 else pfx.length + 1 := by
  refine ⟨?_, by decide, by decide, by decide, ?_⟩
  · have h : pathOffset Dir false [⟨"/a/b/c.go".toList, []⟩, ⟨"/a/d/e.go".toList, []⟩] =
        if (commonPrefix (Dir "/a/b/c.go".toList) (Dir "/a/d/e.go".toList)).length ≠ 0 then
          (commonPrefix (Dir "/a/b/c.go".toList) (Dir "/a/d/e.go".toList)).length + 1
        else (commonPrefix (Dir "/a/b/c.go".toList) (Dir "/a/d/e.go".toList)).length := rfl
    rw [h, h1, h2]
    decide
  · intro p0 p1 ps
    obtain ⟨hc, hmax⟩ := foldl_commonPrefix
      (Dir p1.FileName :: ps.map (fun p => Dir p.FileName)) (Dir p0.FileName)
    refine ⟨_, hc, hmax, ?_⟩
    have h : pathOffset Dir false (p0 :: p1 :: ps) =
        if ((Dir p1.FileName :: ps.map (fun p => Dir p.FileName)).foldl commonPrefix
            (Dir p0.FileName)).length ≠ 0 then
          ((Dir p1.FileName :: ps.map (fun p => Dir p.FileName)).foldl commonPrefix
            (Dir p0.FileName)).length + 1
        else ((Dir p1.FileName :: ps.map (fun p => Dir p.FileName)).foldl commonPrefix
            (Dir p0.FileName)).length := rfl
    rw [h]
    generalize ((Dir p1.FileName :: ps.map (fun p => Dir p.FileName)).foldl commonPrefix
      (Dir p0.FileName)).length = n
    by_cases hz : n = 0 <;> simp [hz]

/-- C9, with the first four bytes of a path for its directory. -/
theorem pathOffset_sibling_dirs_witness :
    pathOffset (fun s => s.take 4) false
      [⟨"/a/b/c.go".toList, []⟩, ⟨"/a/d/e.go".toList, []⟩] = 4 :=
  (pathOffset_sibling_dirs (fun s => s.take 4) (by decide) (by decide)).1

/-- C10: the two distinct files `/a/b/c.go` and `/a/d/c.go`, of directories
`/a/b` and `/a/d`, are both printed as `/c.go`: the offset is 4, one more than
the length of the common prefix `/a/` of the directories, and the byte that
tells the two paths apart is trimmed. -/
theorem trimPath_collision (Dir : GoString → GoString)
    (h1 : Dir "/a/b/c.go".toList = "/a/b".toList)
    (h2 : Dir "/a/d/c.go".toList = "/a/d".toList) :
    "/a/b/c.go".toList ≠ "/a/d/c.go".toList ∧
    trimPath "/a/b/c.go".toList
      (pathOffset Dir false [⟨"/a/b/c.go".toList, []⟩, ⟨"/a/d/c.go".toList, []⟩]) =
        some "/c.go".toList ∧
    trimPath "/a/d/c.go".toList
      (pathOffset Dir false [⟨"/a/b/c.go".toList, []⟩, ⟨"/a/d/c.go".toList, []⟩]) =
        some "/c.go".toList := by
  have h : pathOffset Dir false [⟨"/a/b/c.go".toList, []⟩, ⟨"/a/d/c.go".toList, []⟩] =
      if (commonPrefix (Dir "/a/b/c.go".toList) (Dir "/a/d/c.go".toList)).length ≠ 0 then
        (commonPrefix (Dir "/a/b/c.go".toList) (Dir "/a/d/c.go".toList)).length + 1
      else (commonPrefix (Dir "/a/b/c.go".toList) (Dir "/a/d/c.go".toList)).length := rfl
  rw [h, h1, h2]
  refine ⟨by decide, by decide, by decide⟩

/-- C10, with the first four bytes of a path for its directory. -/
theorem trimPath_collision_witness :
    trimPath "/a/b/c.go".toList
      (pathOffset (fun s => s.take 4) false
        [⟨"/a/b/c.go".toList, []⟩, ⟨"/a/d/c.go".toList, []⟩]) =
      trimPath "/a/d/c.go".toList
        (pathOffset (fun s => s.take 4) false
          [⟨"/a/b/c.go".toList, []⟩, ⟨"/a/d/c.go".toList, []⟩]) :=
  ((trimPath_collision (fun s => s.take 4) (by decide) (by decide)).2.1).trans
    ((trimPath_collision (fun s => s.take 4) (by decide) (by decide)).2.2).symm

/-- C18: `commonPrefix a b` is the longest common prefix of `a` and `b`: it is
a prefix of both; its length is `min (len a) (len b)`, or `a` and `b` differ at
the position just after it; every common prefix of `a` and `b` is a prefix of
it. It may stop in the middle of a path component: on `/a/bee` and `/a/box` it
is `/a/b`. -/
theorem commonPrefix_longest (a b : GoString) :
    commonPrefix a b <+: a ∧ commonPrefix a b <+: b ∧
    ((commonPrefix a b).length = min a.length b.length ∨
      ((commonPrefix a b).length < min a.length b.length ∧
        a[(commonPrefix a b).length]? ≠ b[(commonPrefix a b).length]?)) ∧
    (∀ q : GoString, q <+: a → q <+: b → q <+: commonPrefix a b) ∧
    commonPrefix "/a/bee".toList "/a/box".toList = "/a/b".toList := by
  refine ⟨commonPrefix_prefix_left a b, commonPrefix_prefix_right a b, ?_,
    fun q ha hb => prefix_commonPrefix q a b ha hb, by decide⟩
  rw [commonPrefix_length]
  exact agreeLen_stop a b

/-- C11: when the files of the profiles all have the same non-empty directory
`d` (one profile or several) and the full-path mode is off, the offset is
`len(d)+1`; when the full-path mode is on, the offset is 0. -/
theorem pathOffset_one_dir (Dir : GoString → GoString) (d : GoString)
    (profiles : List Profile) (hne : profiles ≠ []) (hd : d ≠ [])
    (hall : ∀ p ∈ profiles, Dir p.FileName = d) :
    pathOffset Dir false profiles = d.length + 1 ∧
    ∀ ps : List Profile, pathOffset Dir true ps = 0 := by
  have hlen : d.length ≠ 0 := fun h => hd (List.length_eq_zero.mp h)
  refine ⟨?_, fun ps => pathOffset_all Dir ps⟩
  match profiles, hne, hall with
  | [p0], _, hall =>
    rw [pathOffset_single, hall p0 (List.mem_singleton.mpr rfl), if_pos hlen]
  | p0 :: p1 :: ps, _, hall =>
    have h0 : Dir p0.FileName = d := hall p0 (List.mem_cons_self _ _)
    have hrest : ∀ x ∈ Dir p1.FileName :: ps.map (fun p => Dir p.FileName), x = d := by
      intro x hx
      rcases List.mem_cons.mp hx with h1 | h1
      · rw [h1]
        exact hall p1 (List.mem_cons_of_mem _ (List.mem_cons_self _ _))
      · obtain ⟨q, hq, hqx⟩ := List.mem_map.mp h1
        rw [← hqx]
        exact hall q (List.mem_cons_of_mem _ (List.mem_cons_of_mem _ hq))
    rw [pathOffset_several, h0, foldl_commonPrefix_same d _ hrest, if_pos hlen]

/-- C11, on the single file `/a/b/c.go` of directory `/a/b`: the offset is 5,
and 0 in full-path mode. -/
theorem pathOffset_one_dir_witness :
    pathOffset (fun s => s.take 4) false [⟨"/a/b/c.go".toList, []⟩] =
      "/a/b".toList.length + 1 ∧
    "/a/b".toList.length + 1 = 5 ∧
    pathOffset (fun s => s.take 4) true [⟨"/a/b/c.go".toList, []⟩] = 0 :=
  ⟨(pathOffset_one_dir (fun s => s.take 4) "/a/b".toList [⟨"/a/b/c.go".toList, []⟩]
      (by decide) (by decide) (by decide)).1, by decide,
    (pathOffset_one_dir (fun s => s.take 4) "/a/b".toList [⟨"/a/b/c.go".toList, []⟩]
      (by decide) (by decide) (by decide)).2 [⟨"/a/b/c.go".toList, []⟩]⟩

/-- C16: on the empty list `extentsBlocks` returns the empty string; on a
non-empty list it returns the single-block format of the block that goes from
the start line of the first block to the end line of the last block: that line
alone when the two are equal, otherwise the two lines around a dash. -/
theorem extentsBlocks_span (blocks : List ProfileBlock) (hne : blocks ≠ []) :
    extentsBlocks [] = [] ∧
    extentsBlocks blocks =
      formatBlock { zeroBlock with
        StartLine := (blocks.head hne).StartLine
        EndLine := (blocks.getLast hne).EndLine } ∧
    extentsBlocks blocks =
      if (blocks.head hne).StartLine = (blocks.getLast hne).EndLine then
        fmtD (blocks.head hne).StartLine
      else fmtD (blocks.head hne).StartLine ++ ['-'] ++ fmtD (blocks.getLast hne).EndLine := by
  cases blocks with
  | nil => exact absurd rfl hne
  | cons b rest => exact ⟨rfl, formatBlock_congr _ _ rfl rfl, rfl⟩

/-- C16, on the blocks of `partlytested` (lines 15 to 22) and on one block of
a single line. -/
theorem extentsBlocks_span_witness :
    extentsBlocks [⟨15, 34, 17, 7, 2, 1⟩, ⟨17, 7, 19, 3, 1, 0⟩, ⟨19, 8, 21, 3, 1, 1⟩,
      ⟨22, 2, 22, 10, 1, 1⟩] = "15-22".toList ∧
    extentsBlocks [⟨22, 2, 22, 10, 1, 1⟩] = "22".toList :=
  ⟨((extentsBlocks_span [⟨15, 34, 17, 7, 2, 1⟩, ⟨17, 7, 19, 3, 1, 0⟩, ⟨19, 8, 21, 3, 1, 1⟩,
      ⟨22, 2, 22, 10, 1, 1⟩] (by decide)).2.2).trans (by decide),
    ((extentsBlocks_span [⟨22, 2, 22, 10, 1, 1⟩] (by decide)).2.2).trans (by decide)⟩

/-- C20: trimming a path never slices out of range: when the directory of
every file is shorter than its file name, the offset computed by
`printCoverage`, in either mode, is at most the length of every file name, so
that `fn[offset:]` is defined. -/
theorem trimPath_defined (Dir : GoString → GoString) (all : Bool)
    (profiles : List Profile)
    (hlen : ∀ p ∈ profiles, (Dir p.FileName).length < p.FileName.length) :
    ∀ p ∈ profiles,
      pathOffset Dir all profiles ≤ p.FileName.length ∧
      trimPath p.FileName (pathOffset Dir all profiles) =
        some (p.FileName.drop (pathOffset Dir all profiles)) := by
  intro p hp
  have h1 := pathOffset_le_dir Dir all profiles p hp
  have h2 := hlen p hp
  have h3 : pathOffset Dir all profiles ≤ p.FileName.length := by omega
  exact ⟨h3, by simp [trimPath, h3]⟩

/-- C20, on the second of two files of sibling directories. -/
theorem trimPath_defined_witness :
    pathOffset (fun s => s.take 4) false
        [⟨"/a/b/c.go".toList, []⟩, ⟨"/a/d/e.go".toList, []⟩] ≤
      (⟨"/a/d/e.go".toList, []⟩ : Profile).FileName.length ∧
    trimPath (⟨"/a/d/e.go".toList, []⟩ : Profile).FileName
        (pathOffset (fun s => s.take 4) false
          [⟨"/a/b/c.go".toList, []⟩, ⟨"/a/d/e.go".toList, []⟩]) =
      some ((⟨"/a/d/e.go".toList, []⟩ : Profile).FileName.drop
        (pathOffset (fun s => s.take 4) false
          [⟨"/a/b/c.go".toList, []⟩, ⟨"/a/d/e.go".toList, []⟩])) :=
  trimPath_defined (fun s => s.take 4) false
    [⟨"/a/b/c.go".toList, []⟩, ⟨"/a/d/e.go".toList, []⟩] (by decide)
    ⟨"/a/d/e.go".toList, []⟩ (by decide)

/-- C19: for every block list whose blocks all have a start line of at least
1, if `coverageBlocks` returns `covered` different from `total`, then
`missingBlocks` returns a non-empty string. -/
theorem missingBlocks_nonempty (blocks : List ProfileBlock)
    (hline : ∀ b ∈ blocks, b.StartLine ≥ 1)
    (hne : (coverageBlocks blocks).1 ≠ (coverageBlocks blocks).2) :
    missingBlocks blocks ≠ [] := by
  have hunc : ∃ b ∈ blocks, isCovered b = false := by
    by_contra hcon
    apply hne
    apply coverageBlocks_all_covered
    intro b hb
    cases hcb : isCovered b with
    | true => rfl
    | false => exact absurd ⟨b, hb, hcb⟩ hcon
  obtain ⟨x, xs, hr, hx⟩ := rangesOf_splitOnP_ne_nil blocks hunc
  have h := (missingBlocksLoop_spec blocks [] zeroBlock
    (fun b hb _ => by have := hline b hb; omega)).2 rfl
  have h2 : missingBlocks blocks =
      stringsJoin (flushed (missingBlocksLoop blocks [] zeroBlock)) [','] := rfl
  rw [h2, h, List.nil_append, hr]
  exact stringsJoin_ne_nil x xs _ hx

/-- C19, on the blocks of `partlytested`: 4 statements covered out of 5, and
the range `17-19`. -/
theorem missingBlocks_nonempty_witness :
    missingBlocks [⟨15, 34, 17, 7, 2, 1⟩, ⟨17, 7, 19, 3, 1, 0⟩, ⟨19, 8, 21, 3, 1, 1⟩,
      ⟨22, 2, 22, 10, 1, 1⟩] ≠ [] :=
  missingBlocks_nonempty [⟨15, 34, 17, 7, 2, 1⟩, ⟨17, 7, 19, 3, 1, 0⟩,
    ⟨19, 8, 21, 3, 1, 1⟩, ⟨22, 2, 22, 10, 1, 1⟩] (by decide) (by decide)

/-! ## Claims on the command line and the exit code -/

/-- C12: the code returns `nil`, and so exits with code 0, when the coverage
run fails and the context is not cancelled: `runCover` turns a failure of the
test command or of `printCoverage` into `errSilent`, and `mainImpl` returns
`errSilent` only when the context is cancelled, `nil` otherwise. With packages
to run, `mainImpl` returns `nil` exactly when `runCover` succeeded or the
context is not cancelled. -/
theorem mainImplEnd_drops_failure (p : GoString) (ps : List GoString) (e : GoError)
    (print remove ctxErr : Option GoError) :
    runCover none (some e) print remove = some GoError.errSilent ∧
    runCover none none (some e) remove = some GoError.errSilent ∧
    mainImplEnd (p :: ps) (runCover none (some e) print remove) none = none ∧
    mainImplEnd (p :: ps) (runCover none none (some e) remove) none = none ∧
    exitCode (mainImplEnd (p :: ps) (runCover none (some e) print remove) none) = 0 ∧
    mainImplEnd (p :: ps) (runCover none (some e) print remove) (some e) =
      some GoError.errSilent ∧
    (∀ err : Option GoError,
      mainImplEnd (p :: ps) err ctxErr = none ↔ err = none ∨ ctxErr = none) := by
  refine ⟨rfl, rfl, rfl, rfl, rfl, rfl, ?_⟩
  intro err
  cases err <;> cases ctxErr <;> simp [mainImplEnd]

/-- C17: the splitting panics on `pkg -v -- x`: the argument `-v` sets `args`
to `nil`, and at `--` the slice `args[i+1:]` is out of range. In general it
panics when an argument with a leading dash comes before the first `--`. When
no argument before the first `--` has a leading dash, the packages are the
arguments before it, or `.` when there is none, and the other arguments are
those after it; when no argument has a leading dash, the packages are all the
arguments, or `.`. -/
theorem splitArgs_dash_before_dashdash :
    splitArgs ["pkg".toList, "-v".toList, "--".toList, "x".toList] = none ∧
    (∀ pre post : List GoString, "--".toList ∉ pre →
      (∃ a ∈ pre, stringsHasPrefix a "-".toList = true) →
      splitArgs (pre ++ "--".toList :: post) = none) ∧
    (∀ pre post : List GoString, (∀ a ∈ pre, stringsHasPrefix a "-".toList = false) →
      splitArgs (pre ++ "--".toList :: post) =
        some (if pre.length = 0 then [".".toList] else pre, post)) ∧
    (∀ args : List GoString, (∀ a ∈ args, stringsHasPrefix a "-".toList = false) →
      splitArgs args = some (if args.length = 0 then [".".toList] else args, [])) := by
  refine ⟨by decide, ?_, ?_, ?_⟩
  · intro pre post hnd hd
    have h := splitArgsLoop_dash_panics post pre 0 (pre ++ "--".toList :: post) [] hnd hd
    simp only [splitArgs, h]
  · intro pre post hpre
    have h := splitArgsLoop_clean post [] pre [] hpre
    simp only [List.length_nil, List.nil_append] at h
    simp only [splitArgs, h]
  · intro args hargs
    have h := splitArgsLoop_plain args [] args 0 hargs
    simp only [splitArgs, h]

/-- C17, on concrete argument lists: a panic, a split at `--`, and a split
that leaves the default package. -/
theorem splitArgs_dash_before_dashdash_witness :
    splitArgs ["-v".toList, "--".toList] = none ∧
    splitArgs ["a".toList, "b".toList, "--".toList, "-run".toList, "X".toList] =
      some (["a".toList, "b".toList], ["-run".toList, "X".toList]) ∧
    splitArgs ["--".toList, "-v".toList] = some ([".".toList], ["-v".toList]) :=
  ⟨splitArgs_dash_before_dashdash.2.1 ["-v".toList] [] (by decide)
      ⟨"-v".toList, by decide, by decide⟩,
    splitArgs_dash_before_dashdash.2.2.1 ["a".toList, "b".toList]
      ["-run".toList, "X".toList] (by decide),
    splitArgs_dash_before_dashdash.2.2.1 [] ["-v".toList] (by decide)⟩

/-! ## Claims on the report driver -/

/-- C13, as stated, fails: in default mode the statements of a function named
`_` are not counted in the grand total, and in full-detail mode they are. On a
file with the function `_` (two statements, not hit) and the function `f` (one
statement, hit), the default mode ends with 1 statement covered out of 1, and
the full-detail mode with 1 out of 3. -/
theorem underscore_counted_counterexample :
    printCoverage (fun _ => ['d']) (fun _ => Except.ok [⟨['_'], 3, 1, 5, 2⟩, ⟨['f'], 7, 1, 9, 2⟩])
        false [⟨"d/x.go".toList, [⟨3, 10, 5, 2, 2, 0⟩, ⟨7, 10, 9, 2, 1, 1⟩]⟩] =
      Except.ok ⟨[], 1, 1⟩ ∧
    printCoverage (fun _ => ['d']) (fun _ => Except.ok [⟨['_'], 3, 1, 5, 2⟩, ⟨['f'], 7, 1, 9, 2⟩])
        true [⟨"d/x.go".toList, [⟨3, 10, 5, 2, 2, 0⟩, ⟨7, 10, 9, 2, 1, 1⟩]⟩] =
      Except.ok ⟨[⟨"d/x.go".toList, 3, ['_'], 0, 2, "3-5".toList⟩,
        ⟨"d/x.go".toList, 7, ['f'], 1, 1, "7-9".toList⟩], 1, 3⟩ :=
  ⟨rfl, rfl⟩

/-- C13, amended: in the report driver, with full-detail mode off, a function
named `_` whose blocks are found produces no output line and its covered and
total statement counts are not counted in the grand total: the loop goes on as
if the function were not there. With full-detail mode on, it is listed and
counted like any other function. -/
theorem underscore_discounted (offset : Nat) (fn : GoString) (profile : Profile)
    (f : FuncExtent) (rest : List FuncExtent) (acc : Report) (blocks : List ProfileBlock)
    (hname : f.name = ['_']) (hp : f.profile profile = Except.ok blocks) :
    funcsLoop false offset fn profile (f :: rest) acc =
      funcsLoop false offset fn profile rest acc ∧
    funcsLoop true 0 fn profile (f :: rest) acc =
      funcsLoop true 0 fn profile rest
        ⟨acc.lines ++ [⟨fn, f.startLine, f.name, (coverageBlocks blocks).1,
            (coverageBlocks blocks).2,
            if (coverageBlocks blocks).1 = (coverageBlocks blocks).2 then extentsBlocks blocks
            else missingBlocks blocks⟩],
          wrap64 (acc.covered + (coverageBlocks blocks).1),
          wrap64 (acc.total + (coverageBlocks blocks).2)⟩ :=
  ⟨funcsLoop_underscore_default offset fn profile f rest acc blocks hname hp,
    funcsLoop_full_detail fn profile f rest acc blocks hp⟩

/-- C13, amended, on a file with the function `_` before the function `f`. -/
theorem underscore_discounted_witness :
    funcsLoop false 2 "d/x.go".toList
        ⟨"d/x.go".toList, [⟨3, 10, 5, 2, 2, 0⟩, ⟨7, 10, 9, 2, 1, 1⟩]⟩
        [⟨['_'], 3, 1, 5, 2⟩, ⟨['f'], 7, 1, 9, 2⟩] ⟨[], 0, 0⟩ =
      funcsLoop false 2 "d/x.go".toList
        ⟨"d/x.go".toList, [⟨3, 10, 5, 2, 2, 0⟩, ⟨7, 10, 9, 2, 1, 1⟩]⟩
        [⟨['f'], 7, 1, 9, 2⟩] ⟨[], 0, 0⟩ :=
  (underscore_discounted 2 "d/x.go".toList
    ⟨"d/x.go".toList, [⟨3, 10, 5, 2, 2, 0⟩, ⟨7, 10, 9, 2, 1, 1⟩]⟩
    ⟨['_'], 3, 1, 5, 2⟩ [⟨['f'], 7, 1, 9, 2⟩] ⟨[], 0, 0⟩ [⟨3, 10, 5, 2, 2, 0⟩] rfl rfl).1

/-- C14, as stated, fails on the fixture: the full-detail mode also prints the
file name in full, so that the line of `untested`, which is not fully covered,
has the path `testpkg.go` in default mode and the whole file name in
full-detail mode. -/
theorem fullDetail_same_line_counterexample :
    printCoverage (fun s => s.take 30) (fun _ => Except.ok fixtureFuncs) false
        [fixtureProfile] =
      Except.ok ⟨[⟨"testpkg.go".toList, 11, "untested".toList, 0, 1, "11-13".toList⟩,
        ⟨"testpkg.go".toList, 15, "partlytested".toList, 4, 5, "17-19".toList⟩], 5, 7⟩ ∧
    printCoverage (fun s => s.take 30) (fun _ => Except.ok fixtureFuncs) true
        [fixtureProfile] =
      Except.ok ⟨[⟨fixtureFileName, 7, "tested".toList, 1, 1, "7-9".toList⟩,
        ⟨fixtureFileName, 11, "untested".toList, 0, 1, "11-13".toList⟩,
        ⟨fixtureFileName, 15, "partlytested".toList, 4, 5, "17-19".toList⟩], 5, 7⟩ ∧
    (⟨"testpkg.go".toList, 11, "untested".toList, 0, 1, "11-13".toList⟩ : ReportLine) ∉
      ([⟨fixtureFileName, 7, "tested".toList, 1, 1, "7-9".toList⟩,
        ⟨fixtureFileName, 11, "untested".toList, 0, 1, "11-13".toList⟩,
        ⟨fixtureFileName, 15, "partlytested".toList, 4, 5, "17-19".toList⟩] :
          List ReportLine) :=
  ⟨rfl, rfl, by decide⟩

/-- C14, amended: switching on the full-detail mode prints the file names in
full and adds the lines of the functions that are fully covered or named `_`:
for every profile set on which the default mode succeeds, the full-detail mode
succeeds too, and the lines of the default mode are, in order, the lines that
the full-detail mode gives for the functions that are not fully covered and not
named `_`, with the same start line, name, statement counts (hence percentage)
and ranges, and with the path trimmed by the offset of the default mode. On the
fixture, the full-detail mode lists `tested` with the range `7-9` and 1 of 1
statements covered before the lines of `untested` and `partlytested`. -/
theorem fullDetail_lines (Dir : GoString → GoString)
    (findFuncs : GoString → Except GoError (List FuncExtent))
    (profiles : List Profile) (rd : Report)
    (h : printCoverage Dir findFuncs false profiles = Except.ok rd) :
    (∃ ra : Report, printCoverage Dir findFuncs true profiles = Except.ok ra ∧
      rd.lines = (ra.lines.filter keptByDefault).map
        (trimLine (pathOffset Dir false profiles))) ∧
    (∀ (D : GoString → GoString) (g : GoString → Except GoError (List FuncExtent)),
      g fixtureFileName = Except.ok fixtureFuncs →
      printCoverage D g true [fixtureProfile] =
        Except.ok ⟨[⟨fixtureFileName, 7, "tested".toList, 1, 1, "7-9".toList⟩,
          ⟨fixtureFileName, 11, "untested".toList, 0, 1, "11-13".toList⟩,
          ⟨fixtureFileName, 15, "partlytested".toList, 4, 5, "17-19".toList⟩], 5, 7⟩) := by
  refine ⟨?_, fun D g hg => printCoverage_fixture_full_detail D g hg⟩
  have h2 : printCoverage Dir findFuncs true profiles =
      profilesLoop findFuncs true 0 profiles ⟨[], 0, 0⟩ := rfl
  rw [h2]
  exact profilesLoop_modes findFuncs (pathOffset Dir false profiles) profiles
    ⟨[], 0, 0⟩ ⟨[], 0, 0⟩ rd rfl h

/-- C14, amended, on the fixture, with the first 30 bytes of the file name for
its directory. -/
theorem fullDetail_lines_witness :
    ∃ ra : Report,
      printCoverage (fun s => s.take 30) (fun _ => Except.ok fixtureFuncs) true
        [fixtureProfile] = Except.ok ra ∧
      [(⟨"testpkg.go".toList, 11, "untested".toList, 0, 1, "11-13".toList⟩ : ReportLine),
        ⟨"testpkg.go".toList, 15, "partlytested".toList, 4, 5, "17-19".toList⟩] =
        (ra.lines.filter keptByDefault).map
          (trimLine (pathOffset (fun s => s.take 30) false [fixtureProfile])) :=
  (fullDetail_lines (fun s => s.take 30) (fun _ => Except.ok fixtureFuncs) [fixtureProfile]
    ⟨[⟨"testpkg.go".toList, 11, "untested".toList, 0, 1, "11-13".toList⟩,
      ⟨"testpkg.go".toList, 15, "partlytested".toList, 4, 5, "17-19".toList⟩], 5, 7⟩ rfl).1

/-- C15: end to end on the fixture package. Matching gives `tested` its block
of lines 7 to 9, `untested` its block of lines 11 to 13 and `partlytested` its
four blocks; aggregating gives 1 of 1, 0 of 1 and 4 of 5 statements; the missing
ranges are the empty string, `11-13` and `17-19`; in default mode the report
has exactly the lines of `untested` (0 of 1, that is 0%, `11-13`) and of
`partlytested` (4 of 5, that is 80%, `17-19`), with the path `testpkg.go`, and
it ends on a grand total of 5 of 7 statements, which is 71.4% to one decimal. -/
theorem fixture_report (Dir : GoString → GoString)
    (findFuncs : GoString → Except GoError (List FuncExtent))
    (hd : Dir fixtureFileName = "github.com/maruel/covg/testpkg".toList)
    (hf : findFuncs fixtureFileName = Except.ok fixtureFuncs) :
    FuncExtent.profile ⟨"tested".toList, 7, 1, 9, 2⟩ fixtureProfile =
      Except.ok [⟨7, 22, 9, 2, 1, 1⟩] ∧
    FuncExtent.profile ⟨"untested".toList, 11, 1, 13, 2⟩ fixtureProfile =
      Except.ok [⟨11, 24, 13, 2, 1, 0⟩] ∧
    FuncExtent.profile ⟨"partlytested".toList, 15, 1, 23, 2⟩ fixtureProfile =
      Except.ok [⟨15, 34, 17, 7, 2, 1⟩, ⟨17, 7, 19, 3, 1, 0⟩, ⟨19, 8, 21, 3, 1, 1⟩,
        ⟨22, 2, 22, 10, 1, 1⟩] ∧
    coverageBlocks [⟨7, 22, 9, 2, 1, 1⟩] = (1, 1) ∧
    coverageBlocks [⟨11, 24, 13, 2, 1, 0⟩] = (0, 1) ∧
    coverageBlocks [⟨15, 34, 17, 7, 2, 1⟩, ⟨17, 7, 19, 3, 1, 0⟩, ⟨19, 8, 21, 3, 1, 1⟩,
      ⟨22, 2, 22, 10, 1, 1⟩] = (4, 5) ∧
    missingBlocks [⟨7, 22, 9, 2, 1, 1⟩] = [] ∧
    missingBlocks [⟨11, 24, 13, 2, 1, 0⟩] = "11-13".toList ∧
    missingBlocks [⟨15, 34, 17, 7, 2, 1⟩, ⟨17, 7, 19, 3, 1, 0⟩, ⟨19, 8, 21, 3, 1, 1⟩,
      ⟨22, 2, 22, 10, 1, 1⟩] = "17-19".toList ∧
    printCoverage Dir findFuncs false [fixtureProfile] =
      Except.ok ⟨[⟨"testpkg.go".toList, 11, "untested".toList, 0, 1, "11-13".toList⟩,
        ⟨"testpkg.go".toList, 15, "partlytested".toList, 4, 5, "17-19".toList⟩], 5, 7⟩ ∧
    percent 1 1 = 100 ∧ percent 0 1 = 0 ∧ percent 4 5 = 80 ∧
    (7135 : ℚ) / 100 ≤ percent 5 7 ∧ percent 5 7 < (7145 : ℚ) / 100 :=
  ⟨rfl, rfl, rfl, by decide, by decide, by decide, by decide, by decide, by decide,
    printCoverage_fixture_default Dir findFuncs hd hf, percent_fixture⟩

/-- C15, with the first 30 bytes of the file name for its directory. -/
theorem fixture_report_witness :
    printCoverage (fun s => s.take 30) (fun _ => Except.ok fixtureFuncs) false
        [fixtureProfile] =
      Except.ok ⟨[⟨"testpkg.go".toList, 11, "untested".toList, 0, 1, "11-13".toList⟩,
        ⟨"testpkg.go".toList, 15, "partlytested".toList, 4, 5, "17-19".toList⟩], 5, 7⟩ :=
  (fixture_report (fun s => s.take 30) (fun _ => Except.ok fixtureFuncs)
    (by decide) rfl).2.2.2.2.2.2.2.2.2.1

end Covg
